import Mathlib

/-!
# Separate-chaining hash table (`itis::HashTable`, `src/hash_table.cpp`)

A shallow embedding of the table and of its operations, followed by the
properties proved about them.

Modelling conventions

* `std::vector<Bucket>` is a `List Bucket`, `std::list<std::pair<int, std::string>>`
  is a `List (Int × String)`.
* `int` values (keys, `num_keys_`, bucket indices) are unbounded `Int`s.
  `HashTable.capacity` is the bucket count `buckets_.size()` as an integer and
  `HashTable.hash` passes that count to `utils::hash`; the conversion
  `static_cast<int>(buckets_.size())` of the source is `static_cast_int`, and
  `HashTable.capacity_int` is the `int` that `capacity()` returns.  The two
  agree while the table has fewer than `2^31` buckets
  (`capacity_int_of_lt`); the theorems on how `Capacity()` evolves and on the
  validity of the bucket indices are stated with `capacity_int` and carry that
  bound.
* `load_factor_` is a rational number (every finite `double` is one).  The
  growth test `static_cast<double>(num_keys_) / buckets_.size() >= load_factor_`
  is a `binary64` division.  `HashTable.PutWith` is `Put` with the outcome of
  that test as a parameter `grows`, a function of the three values the test
  reads; `binary64Grows` is the test of the source, with the quotient rounded
  to the nearest `binary64` value, and `exactGrows` is the comparison of the
  exact quotient.  `HashTable.Put` is the instance with `exactGrows`
  (`Put_eq_PutWith`).
* `utils::hash` is a collaborator declared outside `hash_table.cpp`; every
  operation takes it as the parameter `utils_hash`.
* `buckets_[i]` with `i` outside the vector is undefined behaviour in C++.  The
  embedding is total: such a read yields the empty chain and such a write
  leaves the vector as it is.
-/

namespace itis

/-- One element of a chain, `std::pair<int, std::string>`. -/
abbrev Entry := Int × String

/-- The chain type `Bucket`, a `std::list` of entries. -/
abbrev Bucket := List Entry

/-- Modelled from the spec: the constant `kGrowthCoefficient` is declared in
`hash_table.hpp`, which is not among the sources; the spec fixes the growth
coefficient to the constant 2. -/
def kGrowthCoefficient : Nat := 2

/-- The exception thrown by the constructor, `std::logic_error(what)`. -/
inductive Exn where
  | logic_error (what : String)
  deriving DecidableEq, Repr

/-- The data members of `HashTable`.  `num_keys_` starts at `0` (its default
member initialiser lives in the header; the spec gives `size = 0` on
construction). -/
structure HashTable where
  load_factor_ : ℚ
  num_keys_ : Int
  buckets_ : List Bucket
  deriving DecidableEq

/-- Reading `buckets[i]`. An index outside the vector reads as the empty chain. -/
def bucketAt (buckets : List Bucket) (i : Int) : Bucket :=
  if 0 ≤ i then buckets.getD i.toNat [] else []

/-- Writing `buckets[i] = b`. An index outside the vector changes nothing. -/
def setBucket (buckets : List Bucket) (i : Int) (b : Bucket) : List Bucket :=
  if 0 ≤ i then buckets.set i.toNat b else buckets

/-- The method `HashTable::hash(key)`: `utils::hash(key, static_cast<int>(buckets_.size()))`. -/
def HashTable.hash (utils_hash : Int → Int → Int) (t : HashTable) (key : Int) : Int :=
  utils_hash key (t.buckets_.length : Int)

/-- The constructor `HashTable::HashTable(capacity, load_factor)`: the two argument checks, in
the order of the source, then `buckets_.resize(capacity)`. -/
def HashTable.construct (capacity : Int) (load_factor : ℚ) : Except Exn HashTable :=
  if capacity ≤ 0 then
    .error (.logic_error "hash table capacity must be greater than zero")
  else if load_factor ≤ 0 ∨ load_factor > 1 then
    .error (.logic_error "hash table load factor must be in range [0...1]")
  else
    .ok { load_factor_ := load_factor, num_keys_ := 0,
          buckets_ := List.replicate capacity.toNat [] }

/-- The method `HashTable::Search(key)`: the first element of the chain `buckets_[hash(key)]`
whose key is `key` gives the result. -/
def HashTable.Search (utils_hash : Int → Int → Int) (t : HashTable) (key : Int) :
    Option String :=
  ((bucketAt t.buckets_ (t.hash utils_hash key)).find? (fun elem => elem.1 == key)).map
    (fun elem => elem.2)

/-- The first loop of `HashTable::Put` over one chain: the first element whose
key is `key` gets the new value and the loop returns (`some` of the updated
chain); `none` when the loop ends without a match. -/
def putLoop : Bucket → Int → String → Option Bucket
  | [], _, _ => none
  | elem :: rest, key, value =>
    if elem.1 = key then some ((elem.1, value) :: rest)
    else (putLoop rest key value).map (fun rest' => elem :: rest')

/-- The inner loop of the rehash in `HashTable::Put`: every element of `bucket`
is appended to the chain `new_buckets[utils::hash(elem.first, new_buckets.size())]`. -/
def rehashBucket (utils_hash : Int → Int → Int) (new_buckets : List Bucket)
    (bucket : Bucket) : List Bucket :=
  bucket.foldl
    (fun nb elem =>
      setBucket nb (utils_hash elem.1 (nb.length : Int))
        (bucketAt nb (utils_hash elem.1 (nb.length : Int)) ++ [elem]))
    new_buckets

/-- The outer loop of the rehash in `HashTable::Put`, over `buckets_` in index
order, starting from `buckets_.size() * kGrowthCoefficient` empty chains. -/
def rehash (utils_hash : Int → Int → Int) (buckets : List Bucket) : List Bucket :=
  buckets.foldl (rehashBucket utils_hash)
    (List.replicate (buckets.length * kGrowthCoefficient) [])

/-- The method `HashTable::Put(key, value)`: the overwrite loop, then the
insertion at the back of the chain, the increment of `num_keys_` and the growth
test with the rehash into `buckets_.size() * kGrowthCoefficient` chains.  The
growth test is the comparison of the exact quotient here; `HashTable.PutWith`
has the test as a parameter and `binary64Grows` is the test in `double`
arithmetic. -/
def HashTable.Put (utils_hash : Int → Int → Int) (t : HashTable) (key : Int)
    (value : String) : HashTable :=
  match putLoop (bucketAt t.buckets_ (t.hash utils_hash key)) key value with
  | some bucket =>
    { t with buckets_ := setBucket t.buckets_ (t.hash utils_hash key) bucket }
  | none =>
    let buckets := setBucket t.buckets_ (t.hash utils_hash key)
      (bucketAt t.buckets_ (t.hash utils_hash key) ++ [(key, value)])
    let num_keys := t.num_keys_ + 1
    if (num_keys : ℚ) / (buckets.length : ℚ) ≥ t.load_factor_ then
      { load_factor_ := t.load_factor_, num_keys_ := num_keys,
        buckets_ := rehash utils_hash buckets }
    else
      { load_factor_ := t.load_factor_, num_keys_ := num_keys, buckets_ := buckets }

/-- The method `HashTable::Remove(key)`: the returned value and the table afterwards.
`std::list::remove(elem)` erases every element equal to the pair `elem`. -/
def HashTable.Remove (utils_hash : Int → Int → Int) (t : HashTable) (key : Int) :
    Option String × HashTable :=
  match (bucketAt t.buckets_ (t.hash utils_hash key)).find? (fun elem => elem.1 == key) with
  | some elem =>
    (some elem.2,
      { t with
        buckets_ := setBucket t.buckets_ (t.hash utils_hash key)
          ((bucketAt t.buckets_ (t.hash utils_hash key)).filter (fun x => x != elem)),
        num_keys_ := t.num_keys_ - 1 })
  | none => (none, t)

/-- The method `HashTable::ContainsKey(key)`. -/
def HashTable.ContainsKey (utils_hash : Int → Int → Int) (t : HashTable) (key : Int) : Bool :=
  (t.Search utils_hash key).isSome

/-- The method `HashTable::size()`. -/
def HashTable.size (t : HashTable) : Int := t.num_keys_

/-- The method `HashTable::empty()`. -/
def HashTable.empty (t : HashTable) : Bool := t.size == 0

/-- The method `HashTable::capacity()` without its conversion to `int`: the
bucket count `buckets_.size()` as an integer.  It is the value the method
returns while the table has fewer than `2^31` buckets (see
`HashTable.capacity_int`). -/
def HashTable.capacity (t : HashTable) : Int := (t.buckets_.length : Int)

/-- The method `HashTable::load_factor()`. -/
def HashTable.load_factor (t : HashTable) : ℚ := t.load_factor_

/-- A call of one of the two mutating operations. -/
inductive Op where
  | Put (key : Int) (value : String)
  | Remove (key : Int)
  deriving DecidableEq

/-- The key an operation is about. -/
def Op.key : Op → Int
  | .Put key _ => key
  | .Remove key => key

/-- The table after one call. -/
def HashTable.step (utils_hash : Int → Int → Int) (t : HashTable) : Op → HashTable
  | .Put key value => t.Put utils_hash key value
  | .Remove key => (t.Remove utils_hash key).2

/-- The table after a sequence of calls, first call first. -/
def HashTable.run (utils_hash : Int → Int → Int) (t : HashTable) (ops : List Op) : HashTable :=
  ops.foldl (HashTable.step utils_hash) t

/-- The hash contract: `0 ≤ hash(key, size) < size` whenever `size > 0`. -/
def RangeValid (utils_hash : Int → Int → Int) : Prop :=
  ∀ key size : Int, 0 < size → 0 ≤ utils_hash key size ∧ utils_hash key size < size

/-- Tables obtained from a successful construction by `Put` and `Remove` calls. -/
def Reachable (utils_hash : Int → Int → Int) (t : HashTable) : Prop :=
  ∃ (capacity : Int) (load_factor : ℚ) (t0 : HashTable) (ops : List Op),
    HashTable.construct capacity load_factor = .ok t0 ∧ t0.run utils_hash ops = t

/-- A range-valid collaborator used for concrete evaluation: the remainder of
the Euclidean division of the key by the bucket count. -/
def modHash (key size : Int) : Int := key % size

/-- Placement: every entry of the chain at index `i` hashes to `i`. -/
def Placed (h : Int → Int → Int) (bs : List Bucket) : Prop :=
  ∀ (i : Nat) (e : Entry), i < bs.length → e ∈ bs.getD i [] → h e.1 (bs.length : Int) = (i : Int)

/-- The representation invariant of a table. -/
structure Inv (h : Int → Int → Int) (t : HashTable) : Prop where
  pos : 0 < t.buckets_.length
  placed : Placed h t.buckets_
  nodup : (t.buckets_.flatten.map Prod.fst).Nodup
  count : t.num_keys_ = (t.buckets_.flatten.length : Int)

/-- The error of the first check of the constructor, the spec's
`InvalidCapacity`: the `std::logic_error` thrown when `capacity <= 0`. -/
def InvalidCapacity : Exn := .logic_error "hash table capacity must be greater than zero"

/-- The error of the second check of the constructor, the spec's
`InvalidLoadFactor`: the `std::logic_error` thrown when the load factor is
outside `(0, 1]`. -/
def InvalidLoadFactor : Exn := .logic_error "hash table load factor must be in range [0...1]"

/-- The conversion `static_cast<int>(n)` of a `size_t` to the 32-bit `int`: the
value congruent to `n` modulo `2^32` in `[-2^31, 2^31)`. -/
def static_cast_int (n : Nat) : Int := ((n : Int) + 2 ^ 31) % 2 ^ 32 - 2 ^ 31

/-- The `int` that `HashTable::capacity()` returns,
`static_cast<int>(buckets_.size())`. -/
def HashTable.capacity_int (t : HashTable) : Int := static_cast_int t.buckets_.length

/-- The integer nearest to `q`, the even one of the two when `q` is half-way
between two integers. -/
def roundNearestEven (q : ℚ) : Int :=
  if q - (⌊q⌋ : ℚ) < 1 / 2 then ⌊q⌋
  else if 1 / 2 < q - (⌊q⌋ : ℚ) then ⌊q⌋ + 1
  else if ⌊q⌋ % 2 = 0 then ⌊q⌋ else ⌊q⌋ + 1

/-- Rounding to the nearest `binary64` value, ties to even, of a rational in the
normal range: with `2^e ≤ |x| < 2^(e+1)` the result is the multiple of
`2^(e-52)` nearest to `x` (a 53-bit significand). -/
def binary64 (x : ℚ) : ℚ :=
  if x = 0 then 0
  else (roundNearestEven (x / 2 ^ (Int.log 2 |x| - 52)) : ℚ) * 2 ^ (Int.log 2 |x| - 52)

/-- The growth test of `HashTable::Put` as the source computes it,
`static_cast<double>(num_keys_) / buckets_.size() >= load_factor_`: both
operands are converted to `binary64`, the quotient is rounded to the nearest
`binary64` value and compared with the threshold.  A division by `0.0` gives an
infinity of the sign of the numerator, or a NaN for `0.0 / 0.0`. -/
def binary64Grows (num_keys : Int) (size : Nat) (load_factor : ℚ) : Bool :=
  if size = 0 then decide (0 < num_keys)
  else decide (binary64 (binary64 (num_keys : ℚ) / binary64 (size : ℚ)) ≥ load_factor)

/-- The growth test with the exact quotient, the one `HashTable.Put` uses. -/
def exactGrows (num_keys : Int) (size : Nat) (load_factor : ℚ) : Bool :=
  decide ((num_keys : ℚ) / (size : ℚ) ≥ load_factor)

/-- The method `HashTable::Put(key, value)` with the outcome of its growth test
given by `grows`, applied to the incremented `num_keys_`, to `buckets_.size()`
and to `load_factor_`.  The source is the instance `binary64Grows`. -/
def HashTable.PutWith (utils_hash : Int → Int → Int) (grows : Int → Nat → ℚ → Bool)
    (t : HashTable) (key : Int) (value : String) : HashTable :=
  match putLoop (bucketAt t.buckets_ (t.hash utils_hash key)) key value with
  | some bucket =>
    { t with buckets_ := setBucket t.buckets_ (t.hash utils_hash key) bucket }
  | none =>
    let buckets := setBucket t.buckets_ (t.hash utils_hash key)
      (bucketAt t.buckets_ (t.hash utils_hash key) ++ [(key, value)])
    let num_keys := t.num_keys_ + 1
    if grows num_keys buckets.length t.load_factor_ = true then
      { load_factor_ := t.load_factor_, num_keys_ := num_keys,
        buckets_ := rehash utils_hash buckets }
    else
      { load_factor_ := t.load_factor_, num_keys_ := num_keys, buckets_ := buckets }

/-- The table after one call, with the growth test `grows`. -/
def HashTable.stepWith (utils_hash : Int → Int → Int) (grows : Int → Nat → ℚ → Bool)
    (t : HashTable) : Op → HashTable
  | .Put key value => t.PutWith utils_hash grows key value
  | .Remove key => (t.Remove utils_hash key).2

/-- The table after a sequence of calls, first call first, with the growth test
`grows`. -/
def HashTable.runWith (utils_hash : Int → Int → Int) (grows : Int → Nat → ℚ → Bool)
    (t : HashTable) (ops : List Op) : HashTable :=
  ops.foldl (HashTable.stepWith utils_hash grows) t

/-- Tables obtained from a successful construction by `Put` and `Remove` calls,
with the growth test `grows`. -/
def ReachableWith (utils_hash : Int → Int → Int) (grows : Int → Nat → ℚ → Bool)
    (t : HashTable) : Prop :=
  ∃ (capacity : Int) (load_factor : ℚ) (t0 : HashTable) (ops : List Op),
    HashTable.construct capacity load_factor = .ok t0 ∧ t0.runWith utils_hash grows ops = t

/-- The `double` nearest to `1/10`, the value of the literal `0.1`; it is
`1/10 + 1/180143985094819840`. -/
def doubleTenth : ℚ := 3602879701896397 / 36028797018963968

/-! ## Indexing and the bucket vector -/

theorem bucketAt_natCast (bs : List Bucket) (n : Nat) :
    bucketAt bs (n : Int) = bs.getD n [] := by
  simp [bucketAt]

theorem setBucket_natCast (bs : List Bucket) (n : Nat) (b : Bucket) :
    setBucket bs (n : Int) b = bs.set n b := by
  simp [setBucket]

theorem length_setBucket (bs : List Bucket) (i : Int) (b : Bucket) :
    (setBucket bs i b).length = bs.length := by
  unfold setBucket; split <;> simp

theorem RangeValid.index {h : Int → Int → Int} (hv : RangeValid h) (key : Int) {len : Nat}
    (hlen : 0 < len) : ∃ n : Nat, n < len ∧ h key (len : Int) = (n : Int) := by
  obtain ⟨h0, h1⟩ := hv key (len : Int) (by exact_mod_cast hlen)
  refine ⟨(h key len).toNat, ?_, ?_⟩
  · omega
  · omega

theorem flatten_split (bs : List Bucket) (n : Nat) (hn : n < bs.length) :
    ∃ A C : List Entry, bs.flatten = A ++ bs.getD n [] ++ C ∧
      ∀ b : Bucket, (bs.set n b).flatten = A ++ b ++ C := by
  refine ⟨(bs.take n).flatten, (bs.drop (n + 1)).flatten, ?_, ?_⟩
  · have hsplit : bs = bs.take n ++ bs[n] :: bs.drop (n + 1) := by
      rw [← List.drop_eq_getElem_cons hn, List.take_append_drop]
    have hget : bs.getD n [] = bs[n] := by simp [List.getD_eq_getElem?_getD, hn]
    rw [hget]
    refine (congrArg List.flatten hsplit).trans ?_
    rw [List.flatten_append, List.flatten_cons, List.append_assoc]
  · intro b
    rw [List.set_eq_take_append_cons_drop]
    simp [hn]

/-! ## The representation invariant -/

theorem mem_flatten_iff_getD (bs : List Bucket) (e : Entry) :
    e ∈ bs.flatten ↔ ∃ i : Nat, i < bs.length ∧ e ∈ bs.getD i [] := by
  rw [List.mem_flatten]
  constructor
  · rintro ⟨l, hl, he⟩
    obtain ⟨i, hi, rfl⟩ := List.mem_iff_getElem.1 hl
    exact ⟨i, hi, by simpa [List.getD_eq_getElem?_getD, hi] using he⟩
  · rintro ⟨i, hi, he⟩
    refine ⟨bs[i], List.getElem_mem hi, ?_⟩
    simpa [List.getD_eq_getElem?_getD, hi] using he

theorem getD_set_self (bs : List Bucket) (n : Nat) (b : Bucket) (hn : n < bs.length) :
    (bs.set n b).getD n [] = b := by
  simp [List.getD_eq_getElem?_getD, hn]

theorem getD_set_ne (bs : List Bucket) (n i : Nat) (b : Bucket) (hne : n ≠ i) :
    (bs.set n b).getD i [] = bs.getD i [] := by
  simp [List.getD_eq_getElem?_getD, List.getElem?_set_ne hne]

theorem Placed.mem_bucket {h : Int → Int → Int} {bs : List Bucket} (hp : Placed h bs)
    {e : Entry} (he : e ∈ bs.flatten) {n : Nat} (hn : h e.1 (bs.length : Int) = (n : Int)) :
    e ∈ bs.getD n [] := by
  obtain ⟨i, hi, hei⟩ := (mem_flatten_iff_getD bs e).1 he
  have := hp i e hi hei
  have hin : i = n := by omega
  exact hin ▸ hei

theorem find_map_eq_some_iff (l : List Entry) (hl : (l.map Prod.fst).Nodup) (k : Int)
    (v : String) :
    (l.find? (fun elem => elem.1 == k)).map (fun elem => elem.2) = some v ↔ (k, v) ∈ l := by
  induction l with
  | nil => simp
  | cons a l ih =>
    obtain ⟨ak, av⟩ := a
    simp only [List.map_cons, List.nodup_cons] at hl
    by_cases hk : ak = k
    · subst hk
      simp only [List.find?_cons, beq_self_eq_true, Option.map_some', Option.some.injEq,
        List.mem_cons, Prod.mk.injEq, true_and]
      constructor
      · intro h; exact Or.inl h.symm
      · rintro (h | h)
        · exact h.symm
        · exact absurd (List.mem_map_of_mem Prod.fst h) hl.1
    · have : (ak == k) = false := by simpa using hk
      simp only [List.find?_cons, this, List.mem_cons, Prod.mk.injEq]
      rw [ih hl.2]
      constructor
      · intro h; exact Or.inr h
      · rintro (h | h)
        · exact absurd h.1.symm hk
        · exact h

theorem find_eq_none_iff (l : List Entry) (k : Int) :
    l.find? (fun elem => elem.1 == k) = none ↔ k ∉ l.map Prod.fst := by
  simp only [List.find?_eq_none, List.mem_map, not_exists, not_and, beq_iff_eq]

theorem Inv.bucket_nodup {h : Int → Int → Int} {t : HashTable} (hi : Inv h t) (n : Nat) :
    ((t.buckets_.getD n []).map Prod.fst).Nodup := by
  by_cases hn : n < t.buckets_.length
  · obtain ⟨A, C, hsplit, _⟩ := flatten_split t.buckets_ n hn
    have := hi.nodup
    rw [hsplit] at this
    simp only [List.map_append, List.append_assoc] at this
    exact (List.nodup_append.1 (List.nodup_append.1 this).2.1).1
  · simp [List.getD_eq_getElem?_getD, List.getElem?_eq_none (Nat.le_of_not_lt hn)]

theorem Inv.search_eq_some_iff {h : Int → Int → Int} (hv : RangeValid h) {t : HashTable}
    (hi : Inv h t) (k : Int) (v : String) :
    t.Search h k = some v ↔ (k, v) ∈ t.buckets_.flatten := by
  obtain ⟨n, hn, hk⟩ := hv.index k hi.pos
  unfold HashTable.Search HashTable.hash
  rw [hk, bucketAt_natCast, find_map_eq_some_iff _ (hi.bucket_nodup n)]
  constructor
  · intro hm
    exact (mem_flatten_iff_getD _ _).2 ⟨n, hn, hm⟩
  · intro hm
    exact hi.placed.mem_bucket hm hk

theorem Inv.search_eq_none_iff {h : Int → Int → Int} (hv : RangeValid h) {t : HashTable}
    (hi : Inv h t) (k : Int) :
    t.Search h k = none ↔ k ∉ t.buckets_.flatten.map Prod.fst := by
  constructor
  · intro hs hm
    obtain ⟨⟨k', v⟩, he, rfl⟩ := List.mem_map.1 hm
    have := (hi.search_eq_some_iff hv k' v).2 he
    simp [hs] at this
  · intro hm
    cases hs : t.Search h k with
    | none => rfl
    | some v =>
      exact absurd (List.mem_map_of_mem Prod.fst ((hi.search_eq_some_iff hv k v).1 hs)) hm

/-! ## The loops of `Put` -/

theorem putLoop_eq_none_iff (l : Bucket) (k : Int) (v : String) :
    putLoop l k v = none ↔ k ∉ l.map Prod.fst := by
  induction l with
  | nil => simp [putLoop]
  | cons a l ih =>
    by_cases hk : a.1 = k
    · simp [putLoop, hk]
    · have hk' : ¬ k = a.1 := fun h => hk h.symm
      simp only [putLoop, hk, if_false, Option.map_eq_none', ih, List.map_cons,
        List.mem_cons, hk', false_or]

theorem putLoop_some_keys {l l' : Bucket} {k : Int} {v : String}
    (hput : putLoop l k v = some l') : l'.map Prod.fst = l.map Prod.fst := by
  induction l generalizing l' with
  | nil => simp [putLoop] at hput
  | cons a l ih =>
    by_cases hk : a.1 = k
    · simp only [putLoop, hk, if_true, Option.some.injEq] at hput
      subst hput
      simp [hk]
    · simp only [putLoop, hk, if_false, Option.map_eq_some'] at hput
      obtain ⟨r, hr, rfl⟩ := hput
      simp [ih hr]

theorem putLoop_some_mem {l l' : Bucket} {k : Int} {v : String}
    (hput : putLoop l k v = some l') (hl : (l.map Prod.fst).Nodup) (e : Entry) :
    e ∈ l' ↔ e = (k, v) ∨ (e ∈ l ∧ e.1 ≠ k) := by
  induction l generalizing l' with
  | nil => simp [putLoop] at hput
  | cons a l ih =>
    simp only [List.map_cons, List.nodup_cons] at hl
    by_cases hk : a.1 = k
    · simp only [putLoop, hk, if_true, Option.some.injEq] at hput
      subst hput
      simp only [List.mem_cons]
      constructor
      · rintro (h | h)
        · exact Or.inl h
        · refine Or.inr ⟨Or.inr h, fun hek => hl.1 ?_⟩
          rw [hk, ← hek]
          exact List.mem_map_of_mem Prod.fst h
      · rintro (h | ⟨h | h, hne⟩)
        · exact Or.inl h
        · exact absurd (h ▸ hk) hne
        · exact Or.inr h
    · simp only [putLoop, hk, if_false, Option.map_eq_some'] at hput
      obtain ⟨r, hr, rfl⟩ := hput
      simp only [List.mem_cons, ih hr hl.2]
      constructor
      · rintro (h | h | ⟨h, hne⟩)
        · exact Or.inr ⟨Or.inl h, h ▸ hk⟩
        · exact Or.inl h
        · exact Or.inr ⟨Or.inr h, hne⟩
      · rintro (h | ⟨h | h, hne⟩)
        · exact Or.inr (Or.inl h)
        · exact Or.inl h
        · exact Or.inr (Or.inr ⟨h, hne⟩)

/-- One step of the rehash loop: `new_buckets[hash(elem.first, size)].push_back(elem)`. -/
theorem rehashBucket_cons (h : Int → Int → Int) (nb : List Bucket) (e : Entry) (es : Bucket) :
    rehashBucket h nb (e :: es) =
      rehashBucket h (setBucket nb (h e.1 (nb.length : Int))
        (bucketAt nb (h e.1 (nb.length : Int)) ++ [e])) es := rfl

theorem rehashBucket_spec {h : Int → Int → Int} (hv : RangeValid h) (es : Bucket)
    (nb : List Bucket) (hpos : 0 < nb.length) (hp : Placed h nb) :
    (rehashBucket h nb es).length = nb.length ∧ Placed h (rehashBucket h nb es) ∧
      List.Perm (rehashBucket h nb es).flatten (nb.flatten ++ es) := by
  induction es generalizing nb with
  | nil => exact ⟨rfl, hp, by simp [rehashBucket]⟩
  | cons e es ih =>
    rw [rehashBucket_cons]
    obtain ⟨n, hn, hk⟩ := hv.index e.1 hpos
    rw [hk, bucketAt_natCast, setBucket_natCast]
    have hlen : (nb.set n (nb.getD n [] ++ [e])).length = nb.length := List.length_set ..
    have hp' : Placed h (nb.set n (nb.getD n [] ++ [e])) := by
      intro i x hi hx
      rw [hlen] at hi ⊢
      by_cases hin : n = i
      · subst hin
        rw [getD_set_self _ _ _ hn, List.mem_append, List.mem_singleton] at hx
        rcases hx with hx | hx
        · exact hp n x hn hx
        · rw [hx]; exact hk
      · rw [getD_set_ne _ _ _ _ hin] at hx
        exact hp i x hi hx
    obtain ⟨h1, h2, h3⟩ := ih _ (hlen ▸ hpos) hp'
    refine ⟨h1.trans hlen, h2, h3.trans ?_⟩
    obtain ⟨A, C, hA, hC⟩ := flatten_split nb n hn
    rw [hC, hA]
    simp only [List.append_assoc, List.singleton_append]
    refine List.Perm.append_left A (List.Perm.append_left _ ?_)
    exact (@List.perm_middle _ e C es).symm

theorem placed_replicate (h : Int → Int → Int) (n : Nat) :
    Placed h (List.replicate n []) := by
  intro i e hi he
  simp only [List.length_replicate] at hi
  simp [List.getD_eq_getElem?_getD, List.getElem?_replicate, hi] at he

theorem rehash_spec {h : Int → Int → Int} (hv : RangeValid h) (bs : List Bucket)
    (hpos : 0 < bs.length) :
    (rehash h bs).length = bs.length * kGrowthCoefficient ∧ Placed h (rehash h bs) ∧
      List.Perm (rehash h bs).flatten bs.flatten := by
  have hfold : rehash h bs =
      rehashBucket h (List.replicate (bs.length * kGrowthCoefficient) []) bs.flatten := by
    unfold rehash rehashBucket
    rw [List.foldl_flatten]
  have hpos' : 0 < (List.replicate (bs.length * kGrowthCoefficient) ([] : Bucket)).length := by
    simp [kGrowthCoefficient, hpos]
  obtain ⟨h1, h2, h3⟩ := rehashBucket_spec hv bs.flatten _ hpos' (placed_replicate h _)
  rw [hfold]
  refine ⟨by simpa using h1, h2, ?_⟩
  have hnil : (List.replicate (bs.length * kGrowthCoefficient) ([] : Bucket)).flatten = [] := by
    simp
  simpa [hnil] using h3

/-! ## `Put` keeps the invariant -/

theorem Placed.set {h : Int → Int → Int} {bs : List Bucket} (hp : Placed h bs) {n : Nat}
    (hn : n < bs.length) {b : Bucket}
    (hb : ∀ e ∈ b, h e.1 (bs.length : Int) = (n : Int)) : Placed h (bs.set n b) := by
  intro i x hi hx
  rw [List.length_set] at hi ⊢
  by_cases hin : n = i
  · subst hin
    rw [getD_set_self _ _ _ hn] at hx
    exact hb x hx
  · rw [getD_set_ne _ _ _ _ hin] at hx
    exact hp i x hi hx

theorem Inv.key_not_mem {h : Int → Int → Int} {t : HashTable} (hi : Inv h t) {k : Int}
    {n : Nat} (hk : h k (t.buckets_.length : Int) = (n : Int))
    (hnot : k ∉ (t.buckets_.getD n []).map Prod.fst) :
    k ∉ t.buckets_.flatten.map Prod.fst := by
  intro hm
  obtain ⟨e, he, rfl⟩ := List.mem_map.1 hm
  exact hnot (List.mem_map_of_mem Prod.fst (hi.placed.mem_bucket he hk))

theorem Inv.put_overwrite {h : Int → Int → Int} {t : HashTable} (hi : Inv h t) {k : Int}
    {v : String} {n : Nat} (hn : n < t.buckets_.length)
    (hk : h k (t.buckets_.length : Int) = (n : Int)) {b : Bucket}
    (hput : putLoop (t.buckets_.getD n []) k v = some b) :
    Inv h { t with buckets_ := t.buckets_.set n b } ∧
      ∀ e : Entry, e ∈ (t.buckets_.set n b).flatten ↔
        e = (k, v) ∨ (e ∈ t.buckets_.flatten ∧ e.1 ≠ k) := by
  obtain ⟨A, C, hA, hC⟩ := flatten_split t.buckets_ n hn
  have hmemb := putLoop_some_mem hput (hi.bucket_nodup n)
  have hkeys := putLoop_some_keys hput
  have hplaced : Placed h (t.buckets_.set n b) := by
    refine hi.placed.set hn (fun e he => ?_)
    rcases (hmemb e).1 he with rfl | ⟨hm, _⟩
    · exact hk
    · exact hi.placed n e hn hm
  have hinv : Inv h { t with buckets_ := t.buckets_.set n b } := by
    refine ⟨by simpa using hi.pos, hplaced, ?_, ?_⟩
    · have := hi.nodup
      rw [hA] at this
      show ((t.buckets_.set n b).flatten.map Prod.fst).Nodup
      rw [hC]
      simpa [hkeys] using this
    · have := hi.count
      rw [hA] at this
      show t.num_keys_ = (((t.buckets_.set n b).flatten.length : Nat) : Int)
      rw [hC, this]
      have hlen : b.length = (t.buckets_.getD n []).length := by
        simpa using congrArg List.length hkeys
      simp [hlen]
  refine ⟨hinv, fun e => ?_⟩
  constructor
  · intro he
    by_cases hek : e.1 = k
    · have hmem : e ∈ (t.buckets_.set n b).getD n [] :=
        hplaced.mem_bucket he (by rw [List.length_set, hek]; exact hk)
      rw [getD_set_self _ _ _ hn] at hmem
      rcases (hmemb e).1 hmem with h1 | ⟨_, h2⟩
      · exact Or.inl h1
      · exact absurd hek h2
    · refine Or.inr ⟨?_, hek⟩
      rw [hC] at he
      rw [hA]
      simp only [List.mem_append] at he ⊢
      rcases he with (he | he) | he
      · exact Or.inl (Or.inl he)
      · rcases (hmemb e).1 he with h1 | ⟨h2, _⟩
        · exact absurd (by rw [h1]) hek
        · exact Or.inl (Or.inr h2)
      · exact Or.inr he
  · rintro (rfl | ⟨he, hek⟩)
    · rw [hC]
      simp only [List.mem_append]
      exact Or.inl (Or.inr ((hmemb _).2 (Or.inl rfl)))
    · rw [hA] at he
      rw [hC]
      simp only [List.mem_append] at he ⊢
      rcases he with (he | he) | he
      · exact Or.inl (Or.inl he)
      · exact Or.inl (Or.inr ((hmemb e).2 (Or.inr ⟨he, hek⟩)))
      · exact Or.inr he

theorem Inv.put_append {h : Int → Int → Int} {t : HashTable} (hi : Inv h t) {k : Int}
    {v : String} {n : Nat} (hn : n < t.buckets_.length)
    (hk : h k (t.buckets_.length : Int) = (n : Int))
    (hput : putLoop (t.buckets_.getD n []) k v = none) :
    0 < (t.buckets_.set n (t.buckets_.getD n [] ++ [(k, v)])).length ∧
      Placed h (t.buckets_.set n (t.buckets_.getD n [] ++ [(k, v)])) ∧
      List.Perm (t.buckets_.set n (t.buckets_.getD n [] ++ [(k, v)])).flatten
        ((k, v) :: t.buckets_.flatten) ∧
      k ∉ t.buckets_.flatten.map Prod.fst := by
  obtain ⟨A, C, hA, hC⟩ := flatten_split t.buckets_ n hn
  refine ⟨by simpa using hi.pos, ?_, ?_, ?_⟩
  · refine hi.placed.set hn (fun e he => ?_)
    rw [List.mem_append, List.mem_singleton] at he
    rcases he with he | rfl
    · exact hi.placed n e hn he
    · exact hk
  · rw [hC, hA]
    simp only [List.append_assoc, List.singleton_append]
    have := @List.perm_middle _ (k, v) (A ++ t.buckets_.getD n []) C
    simpa only [List.append_assoc] using this
  · exact hi.key_not_mem hk ((putLoop_eq_none_iff _ k v).1 hput)

/-- A table whose chains are a rearrangement of `(k, v)` in front of the chains
of a table satisfying the invariant, with `k` new, satisfies the invariant. -/
theorem Inv.of_perm_cons {h : Int → Int → Int} {t : HashTable} (hi : Inv h t) {k : Int}
    {v : String} {bs : List Bucket} (hpos : 0 < bs.length) (hp : Placed h bs)
    (hperm : List.Perm bs.flatten ((k, v) :: t.buckets_.flatten))
    (hnew : k ∉ t.buckets_.flatten.map Prod.fst) :
    Inv h { load_factor_ := t.load_factor_, num_keys_ := t.num_keys_ + 1, buckets_ := bs } ∧
      ∀ e : Entry, e ∈ bs.flatten ↔ e = (k, v) ∨ (e ∈ t.buckets_.flatten ∧ e.1 ≠ k) := by
  refine ⟨⟨hpos, hp, ?_, ?_⟩, fun e => ?_⟩
  · show (bs.flatten.map Prod.fst).Nodup
    rw [(hperm.map Prod.fst).nodup_iff]
    simpa using And.intro hnew hi.nodup
  · show t.num_keys_ + 1 = ((bs.flatten.length : Nat) : Int)
    rw [hperm.length_eq, hi.count]
    simp
  · rw [hperm.mem_iff, List.mem_cons]
    constructor
    · rintro (he | he)
      · exact Or.inl he
      · exact Or.inr ⟨he, fun hek => hnew (hek ▸ List.mem_map_of_mem Prod.fst he)⟩
    · rintro (he | ⟨he, _⟩)
      · exact Or.inl he
      · exact Or.inr he

theorem Inv.inv_put {h : Int → Int → Int} (hv : RangeValid h) {t : HashTable} (hi : Inv h t)
    (k : Int) (v : String) :
    Inv h (t.Put h k v) ∧
      ∀ e : Entry, e ∈ (t.Put h k v).buckets_.flatten ↔
        e = (k, v) ∨ (e ∈ t.buckets_.flatten ∧ e.1 ≠ k) := by
  obtain ⟨n, hn, hk⟩ := hv.index k hi.pos
  unfold HashTable.Put HashTable.hash
  rw [hk]
  simp only [bucketAt_natCast, setBucket_natCast]
  cases hput : putLoop (t.buckets_.getD n []) k v with
  | some b => exact hi.put_overwrite hn hk hput
  | none =>
    obtain ⟨hpos, hp, hperm, hnew⟩ := hi.put_append hn hk hput
    simp only
    split
    · obtain ⟨_, h2, h3⟩ := rehash_spec hv _ hpos
      have hpos2 : 0 < (rehash h (t.buckets_.set n (t.buckets_.getD n [] ++ [(k, v)]))).length := by
        obtain ⟨h1, _, _⟩ := rehash_spec hv _ hpos
        rw [h1]; simp [kGrowthCoefficient]; exact hi.pos
      exact hi.of_perm_cons hpos2 h2 (h3.trans hperm) hnew
    · exact hi.of_perm_cons hpos hp hperm hnew

/-! ## `Remove` keeps the invariant -/

theorem filter_ne_length {l : List Entry} (hl : (l.map Prod.fst).Nodup) {e : Entry}
    (he : e ∈ l) : ((l.filter (fun x => x != e)).length : Int) = (l.length : Int) - 1 := by
  have hnd : l.Nodup := List.Nodup.of_map Prod.fst hl
  have hfe : l.filter (fun x => x != e) = l.erase e := (hnd.erase_eq_filter e).symm
  rw [hfe, List.length_erase_of_mem he]
  have : 0 < l.length := List.length_pos_of_mem he
  omega

theorem Inv.remove_found {h : Int → Int → Int} {t : HashTable} (hi : Inv h t) {k : Int}
    {n : Nat} (hn : n < t.buckets_.length)
    (hk : h k (t.buckets_.length : Int) = (n : Int)) {elem : Entry}
    (hfind : (t.buckets_.getD n []).find? (fun x => x.1 == k) = some elem) :
    Inv h { t with
      buckets_ := t.buckets_.set n ((t.buckets_.getD n []).filter (fun x => x != elem)),
      num_keys_ := t.num_keys_ - 1 } ∧
      ∀ e : Entry,
        e ∈ (t.buckets_.set n ((t.buckets_.getD n []).filter (fun x => x != elem))).flatten ↔
          e ∈ t.buckets_.flatten ∧ e.1 ≠ k := by
  obtain ⟨A, C, hA, hC⟩ := flatten_split t.buckets_ n hn
  have helem : elem ∈ t.buckets_.getD n [] := List.mem_of_find?_eq_some hfind
  have hkey : elem.1 = k := by simpa using List.find?_some hfind
  have hbnd := hi.bucket_nodup n
  have hplaced : Placed h
      (t.buckets_.set n ((t.buckets_.getD n []).filter (fun x => x != elem))) := by
    refine hi.placed.set hn (fun e he => ?_)
    exact hi.placed n e hn (List.mem_filter.1 he).1
  have hmemb : ∀ e : Entry, e ∈ (t.buckets_.getD n []).filter (fun x => x != elem) ↔
      e ∈ t.buckets_.getD n [] ∧ e.1 ≠ k := by
    intro e
    rw [List.mem_filter]
    constructor
    · rintro ⟨he, hne⟩
      refine ⟨he, fun hek => ?_⟩
      have heq : e = elem :=
        List.inj_on_of_nodup_map hbnd he helem (hek.trans hkey.symm)
      simp [heq] at hne
    · rintro ⟨he, hne⟩
      refine ⟨he, ?_⟩
      have : e ≠ elem := fun heq => hne (heq ▸ hkey)
      simpa using this
  have hsub : List.Sublist
      (t.buckets_.set n ((t.buckets_.getD n []).filter (fun x => x != elem))).flatten
      t.buckets_.flatten := by
    rw [hC, hA]
    exact ((List.Sublist.refl A).append (List.filter_sublist _)).append (List.Sublist.refl C)
  refine ⟨⟨by simpa using hi.pos, hplaced, hi.nodup.sublist (hsub.map Prod.fst), ?_⟩,
    fun e => ?_⟩
  · show t.num_keys_ - 1 = (((t.buckets_.set n ((t.buckets_.getD n []).filter
      (fun x => x != elem))).flatten.length : Nat) : Int)
    have h1 := filter_ne_length hbnd helem
    have h2 := hi.count
    rw [hA] at h2
    rw [hC, h2]
    simp only [List.length_append, Nat.cast_add]
    rw [h1]
    ring
  · constructor
    · intro he
      refine ⟨hsub.subset he, fun hek => ?_⟩
      have hm := hplaced.mem_bucket he (by rw [List.length_set, hek]; exact hk)
      rw [getD_set_self _ _ _ hn] at hm
      exact ((hmemb e).1 hm).2 hek
    · rw [hC, hA]
      simp only [List.mem_append, hmemb]
      rintro ⟨(he | he) | he, hne⟩
      · exact Or.inl (Or.inl he)
      · exact Or.inl (Or.inr ⟨he, hne⟩)
      · exact Or.inr he

/-- The table after `Remove` and the returned value, under the invariant. -/
theorem Inv.inv_remove {h : Int → Int → Int} (hv : RangeValid h) {t : HashTable} (hi : Inv h t)
    (k : Int) :
    Inv h (t.Remove h k).2 ∧
      (∀ e : Entry, e ∈ (t.Remove h k).2.buckets_.flatten ↔
        e ∈ t.buckets_.flatten ∧ e.1 ≠ k) ∧
      (t.Remove h k).1 = t.Search h k := by
  obtain ⟨n, hn, hk⟩ := hv.index k hi.pos
  unfold HashTable.Remove HashTable.Search HashTable.hash
  rw [hk]
  simp only [bucketAt_natCast, setBucket_natCast]
  cases hfind : (t.buckets_.getD n []).find? (fun x => x.1 == k) with
  | some elem =>
    obtain ⟨h1, h2⟩ := hi.remove_found hn hk hfind
    exact ⟨h1, h2, rfl⟩
  | none =>
    refine ⟨hi, fun e => ⟨fun he => ⟨he, fun hek => ?_⟩, fun he => he.1⟩, rfl⟩
    have hm := hi.placed.mem_bucket he (by rw [hek]; exact hk)
    exact (find_eq_none_iff _ k).1 hfind (hek ▸ List.mem_map_of_mem Prod.fst hm)

/-! ## Reachable tables satisfy the invariant -/

theorem construct_ok_iff (capacity : Int) (load_factor : ℚ) (t : HashTable) :
    HashTable.construct capacity load_factor = .ok t ↔
      0 < capacity ∧ 0 < load_factor ∧ load_factor ≤ 1 ∧
        t = { load_factor_ := load_factor, num_keys_ := 0,
              buckets_ := List.replicate capacity.toNat [] } := by
  unfold HashTable.construct
  by_cases hc : capacity ≤ 0
  · simp only [hc, if_true]
    constructor
    · intro hx; cases hx
    · rintro ⟨h1, _⟩; omega
  · by_cases hl : load_factor ≤ 0 ∨ load_factor > 1
    · simp only [hc, hl, if_true, if_false]
      constructor
      · intro hx; cases hx
      · rintro ⟨_, h2, h3, _⟩
        rcases hl with hl | hl
        · exact absurd h2 (not_lt.2 hl)
        · exact absurd h3 (not_le.2 hl)
    · simp only [hc, hl, if_false, Except.ok.injEq]
      push_neg at hc hl
      constructor
      · intro hx; exact ⟨hc, hl.1, hl.2, hx.symm⟩
      · rintro ⟨_, _, _, hx⟩; exact hx.symm

theorem Inv.inv_construct {h : Int → Int → Int} {capacity : Int} {load_factor : ℚ}
    {t : HashTable} (hc : HashTable.construct capacity load_factor = .ok t) : Inv h t := by
  obtain ⟨hpos, _, _, rfl⟩ := (construct_ok_iff _ _ _).1 hc
  refine ⟨?_, placed_replicate h _, ?_, ?_⟩
  · simp only [List.length_replicate]; omega
  · simp
  · simp

theorem Inv.inv_step {h : Int → Int → Int} (hv : RangeValid h) {t : HashTable} (hi : Inv h t)
    (op : Op) : Inv h (t.step h op) := by
  cases op with
  | Put k v => exact (hi.inv_put hv k v).1
  | Remove k => exact (hi.inv_remove hv k).1

theorem Inv.inv_run {h : Int → Int → Int} (hv : RangeValid h) {t : HashTable} (hi : Inv h t)
    (ops : List Op) : Inv h (t.run h ops) := by
  induction ops generalizing t with
  | nil => exact hi
  | cons op ops ih => exact ih (hi.inv_step hv op)

theorem Reachable.inv {h : Int → Int → Int} (hv : RangeValid h) {t : HashTable}
    (hr : Reachable h t) : Inv h t := by
  obtain ⟨capacity, load_factor, t0, ops, hc, rfl⟩ := hr
  exact (Inv.inv_construct hc).inv_run hv ops

/-! ## Size, capacity and load factor after one call -/

theorem length_rehashBucket (h : Int → Int → Int) (es : Bucket) (nb : List Bucket) :
    (rehashBucket h nb es).length = nb.length := by
  induction es generalizing nb with
  | nil => rfl
  | cons e es ih => rw [rehashBucket_cons, ih, length_setBucket]

theorem length_foldl_rehashBucket (h : Int → Int → Int) (bs nb : List Bucket) :
    (bs.foldl (rehashBucket h) nb).length = nb.length := by
  induction bs generalizing nb with
  | nil => rfl
  | cons b bs ih => rw [List.foldl_cons, ih, length_rehashBucket]

theorem length_rehash (h : Int → Int → Int) (bs : List Bucket) :
    (rehash h bs).length = bs.length * kGrowthCoefficient := by
  unfold rehash
  rw [length_foldl_rehashBucket, List.length_replicate]

theorem putLoop_eq_none_iff_find (l : Bucket) (k : Int) (v : String) :
    putLoop l k v = none ↔ l.find? (fun elem => elem.1 == k) = none := by
  rw [putLoop_eq_none_iff, find_eq_none_iff]

theorem search_eq_none_iff_putLoop (h : Int → Int → Int) (t : HashTable) (k : Int)
    (v : String) :
    t.Search h k = none ↔ putLoop (bucketAt t.buckets_ (t.hash h k)) k v = none := by
  unfold HashTable.Search
  rw [Option.map_eq_none', putLoop_eq_none_iff_find]

/-- The three ways `Put` can end: overwrite, insertion with growth, insertion
without growth. -/
theorem Put_shape (h : Int → Int → Int) (t : HashTable) (k : Int) (v : String) :
    (t.Put h k v).load_factor_ = t.load_factor_ ∧
      ((t.Search h k ≠ none ∧ (t.Put h k v).num_keys_ = t.num_keys_ ∧
          (t.Put h k v).buckets_.length = t.buckets_.length) ∨
        (t.Search h k = none ∧ (t.Put h k v).num_keys_ = t.num_keys_ + 1 ∧
          (((t.num_keys_ + 1 : Int) : ℚ) / (t.buckets_.length : ℚ) ≥ t.load_factor_ ∧
              (t.Put h k v).buckets_.length = t.buckets_.length * kGrowthCoefficient ∨
            ¬ (((t.num_keys_ + 1 : Int) : ℚ) / (t.buckets_.length : ℚ) ≥ t.load_factor_) ∧
              (t.Put h k v).buckets_.length = t.buckets_.length))) := by
  have hs := search_eq_none_iff_putLoop h t k v
  unfold HashTable.Put
  cases hput : putLoop (bucketAt t.buckets_ (t.hash h k)) k v with
  | some b =>
    refine ⟨rfl, Or.inl ⟨?_, rfl, ?_⟩⟩
    · rw [Ne, hs, hput]; simp
    · simp only [length_setBucket]
  | none =>
    simp only [length_setBucket]
    by_cases hg : ((t.num_keys_ + 1 : Int) : ℚ) / (t.buckets_.length : ℚ) ≥ t.load_factor_
    · rw [if_pos hg]
      refine ⟨rfl, Or.inr ⟨hs.2 hput, rfl, Or.inl ⟨hg, ?_⟩⟩⟩
      simp only [length_rehash, length_setBucket]
    · rw [if_neg hg]
      refine ⟨rfl, Or.inr ⟨hs.2 hput, rfl, Or.inr ⟨hg, ?_⟩⟩⟩
      simp only [length_setBucket]

/-- The two ways `Remove` can end: nothing found, or one chain filtered and the
counter decremented. -/
theorem Remove_shape (h : Int → Int → Int) (t : HashTable) (k : Int) :
    (t.Remove h k).2.load_factor_ = t.load_factor_ ∧
      (t.Remove h k).2.buckets_.length = t.buckets_.length ∧
      ((t.Search h k = none ∧ t.Remove h k = (none, t)) ∨
        (t.Search h k ≠ none ∧ (t.Remove h k).2.num_keys_ = t.num_keys_ - 1)) := by
  unfold HashTable.Remove HashTable.Search
  cases hfind : (bucketAt t.buckets_ (t.hash h k)).find? (fun elem => elem.1 == k) with
  | some elem =>
    refine ⟨rfl, ?_, Or.inr ⟨by simp, rfl⟩⟩
    simp only [length_setBucket]
  | none => exact ⟨rfl, rfl, Or.inl ⟨rfl, rfl⟩⟩

/-! ## Reachability and the sample collaborator -/

theorem rangeValid_modHash : RangeValid modHash := by
  intro key size hsize
  exact ⟨Int.emod_nonneg key (by omega), Int.emod_lt_of_pos key hsize⟩

theorem Reachable.of_construct (h : Int → Int → Int) {capacity : Int} {load_factor : ℚ}
    {t : HashTable} (hc : HashTable.construct capacity load_factor = .ok t) :
    Reachable h t :=
  ⟨capacity, load_factor, t, [], hc, rfl⟩

theorem Reachable.reach_step {h : Int → Int → Int} {t : HashTable} (hr : Reachable h t) (op : Op) :
    Reachable h (t.step h op) := by
  obtain ⟨capacity, load_factor, t0, ops, hc, rfl⟩ := hr
  exact ⟨capacity, load_factor, t0, ops ++ [op], hc, by simp [HashTable.run, List.foldl_append]⟩

theorem Reachable.reach_put {h : Int → Int → Int} {t : HashTable} (hr : Reachable h t) (k : Int)
    (v : String) : Reachable h (t.Put h k v) :=
  hr.reach_step (.Put k v)

theorem Reachable.reach_remove {h : Int → Int → Int} {t : HashTable} (hr : Reachable h t)
    (k : Int) : Reachable h (t.Remove h k).2 :=
  hr.reach_step (.Remove k)

theorem construct_two_one :
    HashTable.construct 2 1 = .ok { load_factor_ := 1, num_keys_ := 0, buckets_ := [[], []] } := by
  simp [HashTable.construct]

theorem put_two_one :
    HashTable.Put modHash { load_factor_ := 1, num_keys_ := 0, buckets_ := [[], []] } 1 "a" =
      { load_factor_ := 1, num_keys_ := 1, buckets_ := [[], [(1, "a")]] } := by
  simp [HashTable.Put, HashTable.hash, modHash, bucketAt, setBucket, putLoop]
  norm_num

/-- The table `New(2, 1); Put(1, "a")` is reachable. -/
theorem reachable_sample :
    Reachable modHash { load_factor_ := 1, num_keys_ := 1, buckets_ := [[], [(1, "a")]] } :=
  put_two_one ▸ (Reachable.of_construct modHash construct_two_one).reach_put 1 "a"

theorem Reachable.search_put {h : Int → Int → Int} (hv : RangeValid h) {t : HashTable}
    (hr : Reachable h t) (k : Int) (v : String) : (t.Put h k v).Search h k = some v := by
  obtain ⟨hinv, hmem⟩ := (hr.inv hv).inv_put hv k v
  exact (hinv.search_eq_some_iff hv k v).2 ((hmem (k, v)).2 (Or.inl rfl))

theorem Inv.search_of_empty {h : Int → Int → Int} (hv : RangeValid h) {t : HashTable}
    (hi : Inv h t) (hempty : t.empty = true) (k : Int) : t.Search h k = none := by
  rw [hi.search_eq_none_iff hv k]
  have hz : t.num_keys_ = 0 := by simpa [HashTable.empty, HashTable.size] using hempty
  have hlen : t.buckets_.flatten.length = 0 := by
    have := hi.count
    rw [hz] at this
    exact_mod_cast this.symm
  rw [List.length_eq_zero.1 hlen]
  simp

/-! ## `keys()` and `values()` -/

theorem search_construct {capacity : Int} {load_factor : ℚ} {t : HashTable}
    (hc : HashTable.construct capacity load_factor = .ok t) (h : Int → Int → Int) (k : Int) :
    t.Search h k = none := by
  obtain ⟨_, _, _, rfl⟩ := (construct_ok_iff _ _ _).1 hc
  have hb : ∀ i : Int, bucketAt (List.replicate capacity.toNat ([] : Bucket)) i = [] := by
    intro i
    unfold bucketAt
    split
    · by_cases hi : i.toNat < capacity.toNat
      · simp [List.getD_eq_getElem?_getD, List.getElem?_replicate, hi]
      · simp [List.getD_eq_getElem?_getD, List.getElem?_replicate, hi]
    · rfl
  simp [HashTable.Search, hb]

/-! ## Placement, capacity and frame lemmas -/

theorem length_step (h : Int → Int → Int) (t : HashTable) (op : Op) :
    (t.step h op).buckets_.length = t.buckets_.length ∨
      (t.step h op).buckets_.length = t.buckets_.length * 2 := by
  cases op with
  | Put k v =>
    obtain ⟨_, hsh⟩ := Put_shape h t k v
    rcases hsh with ⟨_, _, hlen⟩ | ⟨_, _, ⟨_, hlen⟩ | ⟨_, hlen⟩⟩
    · exact Or.inl hlen
    · exact Or.inr hlen
    · exact Or.inl hlen
  | Remove k => exact Or.inl (Remove_shape h t k).2.1

theorem length_run (h : Int → Int → Int) (t : HashTable) (ops : List Op) :
    ∃ n : Nat, (t.run h ops).buckets_.length = t.buckets_.length * 2 ^ n := by
  induction ops generalizing t with
  | nil => exact ⟨0, by simp [HashTable.run]⟩
  | cons op ops ih =>
    obtain ⟨n, hn⟩ := ih (t.step h op)
    rcases length_step h t op with hlen | hlen
    · exact ⟨n, by rw [← hlen]; exact hn⟩
    · refine ⟨n + 1, ?_⟩
      have : (t.run h (op :: ops)) = (t.step h op).run h ops := rfl
      rw [this, hn, hlen, pow_succ]
      ring

theorem Inv.search_put_ne {h : Int → Int → Int} (hv : RangeValid h) {t : HashTable}
    (hi : Inv h t) {k k' : Int} (hne : k ≠ k') (v : String) :
    (t.Put h k v).Search h k' = t.Search h k' := by
  obtain ⟨hinv, hmem⟩ := hi.inv_put hv k v
  apply Option.ext
  intro v'
  simp only [Option.mem_def]
  rw [hinv.search_eq_some_iff hv, hi.search_eq_some_iff hv, hmem]
  constructor
  · rintro (heq | ⟨hm, _⟩)
    · exact absurd (congrArg Prod.fst heq).symm hne
    · exact hm
  · intro hm
    exact Or.inr ⟨hm, fun heq => hne heq.symm⟩

/-- The bucket vector and the counter after a `Put` of a key that is not stored. -/
theorem Put_new_buckets (h : Int → Int → Int) (t : HashTable) (k : Int) (v : String)
    (hnew : t.Search h k = none) :
    (t.Put h k v).num_keys_ = t.num_keys_ + 1 ∧
      (t.Put h k v).buckets_ =
        if ((t.num_keys_ + 1 : Int) : ℚ) / (t.buckets_.length : ℚ) ≥ t.load_factor_ then
          rehash h (setBucket t.buckets_ (t.hash h k)
            (bucketAt t.buckets_ (t.hash h k) ++ [(k, v)]))
        else setBucket t.buckets_ (t.hash h k) (bucketAt t.buckets_ (t.hash h k) ++ [(k, v)]) := by
  have hput := (search_eq_none_iff_putLoop h t k v).1 hnew
  unfold HashTable.Put
  rw [hput]
  simp only [length_setBucket]
  split <;> exact ⟨rfl, rfl⟩

theorem put_sample_three :
    HashTable.Put modHash { load_factor_ := 1, num_keys_ := 1, buckets_ := [[], [(1, "a")]] }
        3 "c" =
      { load_factor_ := 1, num_keys_ := 2,
        buckets_ := [[], [(1, "a")], [], [(3, "c")]] } := by
  simp [HashTable.Put, HashTable.hash, modHash, bucketAt, setBucket, putLoop, rehash,
    rehashBucket, kGrowthCoefficient]

theorem Inv.capacity_pos {h : Int → Int → Int} {t : HashTable} (hi : Inv h t) :
    0 < t.capacity := by
  unfold HashTable.capacity
  exact_mod_cast hi.pos

/-- Size and capacity after a `Put` of a key that is not stored. -/
theorem Put_new_size (h : Int → Int → Int) (t : HashTable) (k : Int) (v : String)
    (hnew : t.Search h k = none) :
    (t.Put h k v).num_keys_ = t.num_keys_ + 1 ∧
      (t.Put h k v).load_factor_ = t.load_factor_ ∧
      (t.Put h k v).buckets_.length =
        if ((t.num_keys_ + 1 : Int) : ℚ) / (t.buckets_.length : ℚ) ≥ t.load_factor_ then
          t.buckets_.length * 2
        else t.buckets_.length := by
  obtain ⟨hnum, hbs⟩ := Put_new_buckets h t k v hnew
  refine ⟨hnum, (Put_shape h t k v).1, ?_⟩
  rw [hbs]
  split
  · rw [length_rehash, length_setBucket]
    rfl
  · rw [length_setBucket]

theorem construct_four :
    HashTable.construct 4 (3 / 4) =
      .ok { load_factor_ := 3 / 4, num_keys_ := 0, buckets_ := [[], [], [], []] } := by
  norm_num [HashTable.construct]
  rfl

/-- The operation `Put` of the exact quotient is `PutWith` at `exactGrows`. -/
theorem Put_eq_PutWith (h : Int → Int → Int) (t : HashTable) (k : Int) (v : String) :
    t.Put h k v = t.PutWith h exactGrows k v := by
  unfold HashTable.Put HashTable.PutWith exactGrows
  cases putLoop (bucketAt t.buckets_ (t.hash h k)) k v with
  | some b => rfl
  | none =>
    simp only [decide_eq_true_eq]

/-- The counter, the threshold and the bucket vector after a `Put` of a key that
is not stored. -/
theorem PutWith_new_buckets (h : Int → Int → Int) (grows : Int → Nat → ℚ → Bool)
    (t : HashTable) (k : Int) (v : String) (hnew : t.Search h k = none) :
    (t.PutWith h grows k v).num_keys_ = t.num_keys_ + 1 ∧
      (t.PutWith h grows k v).load_factor_ = t.load_factor_ ∧
      (t.PutWith h grows k v).buckets_ =
        if grows (t.num_keys_ + 1) t.buckets_.length t.load_factor_ = true then
          rehash h (setBucket t.buckets_ (t.hash h k)
            (bucketAt t.buckets_ (t.hash h k) ++ [(k, v)]))
        else setBucket t.buckets_ (t.hash h k) (bucketAt t.buckets_ (t.hash h k) ++ [(k, v)]) := by
  have hput := (search_eq_none_iff_putLoop h t k v).1 hnew
  unfold HashTable.PutWith
  rw [hput]
  simp only [length_setBucket]
  split <;> exact ⟨rfl, rfl, rfl⟩

/-- The counter, the threshold and the bucket count after a `Put` of a stored key. -/
theorem PutWith_stored (h : Int → Int → Int) (grows : Int → Nat → ℚ → Bool)
    (t : HashTable) (k : Int) (v : String) (hs : t.Search h k ≠ none) :
    (t.PutWith h grows k v).num_keys_ = t.num_keys_ ∧
      (t.PutWith h grows k v).load_factor_ = t.load_factor_ ∧
      (t.PutWith h grows k v).buckets_.length = t.buckets_.length := by
  have hput : putLoop (bucketAt t.buckets_ (t.hash h k)) k v ≠ none :=
    fun hp => hs ((search_eq_none_iff_putLoop h t k v).2 hp)
  unfold HashTable.PutWith
  cases hp : putLoop (bucketAt t.buckets_ (t.hash h k)) k v with
  | some b => exact ⟨rfl, rfl, by simp only [length_setBucket]⟩
  | none => exact absurd hp hput

/-- The bucket count after a `Put` of a key that is not stored. -/
theorem PutWith_new_length (h : Int → Int → Int) (grows : Int → Nat → ℚ → Bool)
    (t : HashTable) (k : Int) (v : String) (hnew : t.Search h k = none) :
    (t.PutWith h grows k v).buckets_.length =
      if grows (t.num_keys_ + 1) t.buckets_.length t.load_factor_ = true then
        t.buckets_.length * 2
      else t.buckets_.length := by
  rw [(PutWith_new_buckets h grows t k v hnew).2.2]
  split
  · rw [length_rehash, length_setBucket]
    rfl
  · rw [length_setBucket]

theorem length_PutWith (h : Int → Int → Int) (grows : Int → Nat → ℚ → Bool)
    (t : HashTable) (k : Int) (v : String) :
    (t.PutWith h grows k v).buckets_.length = t.buckets_.length ∨
      (t.PutWith h grows k v).buckets_.length = t.buckets_.length * 2 := by
  by_cases hs : t.Search h k = none
  · rw [PutWith_new_length h grows t k v hs]
    split
    · exact Or.inr rfl
    · exact Or.inl rfl
  · exact Or.inl (PutWith_stored h grows t k v hs).2.2

theorem length_stepWith (h : Int → Int → Int) (grows : Int → Nat → ℚ → Bool)
    (t : HashTable) (op : Op) :
    (t.stepWith h grows op).buckets_.length = t.buckets_.length ∨
      (t.stepWith h grows op).buckets_.length = t.buckets_.length * 2 := by
  cases op with
  | Put k v => exact length_PutWith h grows t k v
  | Remove k => exact Or.inl (Remove_shape h t k).2.1

theorem length_runWith (h : Int → Int → Int) (grows : Int → Nat → ℚ → Bool)
    (t : HashTable) (ops : List Op) :
    ∃ n : Nat, (t.runWith h grows ops).buckets_.length = t.buckets_.length * 2 ^ n := by
  induction ops generalizing t with
  | nil => exact ⟨0, by simp [HashTable.runWith]⟩
  | cons op ops ih =>
    obtain ⟨n, hn⟩ := ih (t.stepWith h grows op)
    have hrun : t.runWith h grows (op :: ops) = (t.stepWith h grows op).runWith h grows ops :=
      rfl
    rcases length_stepWith h grows t op with hlen | hlen
    · exact ⟨n, by rw [hrun, hn, hlen]⟩
    · refine ⟨n + 1, ?_⟩
      rw [hrun, hn, hlen, pow_succ]
      ring

theorem Inv.inv_putWith {h : Int → Int → Int} (hv : RangeValid h)
    (grows : Int → Nat → ℚ → Bool) {t : HashTable} (hi : Inv h t) (k : Int) (v : String) :
    Inv h (t.PutWith h grows k v) ∧
      ∀ e : Entry, e ∈ (t.PutWith h grows k v).buckets_.flatten ↔
        e = (k, v) ∨ (e ∈ t.buckets_.flatten ∧ e.1 ≠ k) := by
  obtain ⟨n, hn, hk⟩ := hv.index k hi.pos
  unfold HashTable.PutWith HashTable.hash
  rw [hk]
  simp only [bucketAt_natCast, setBucket_natCast]
  cases hput : putLoop (t.buckets_.getD n []) k v with
  | some b => exact hi.put_overwrite hn hk hput
  | none =>
    obtain ⟨hpos, hp, hperm, hnew⟩ := hi.put_append hn hk hput
    simp only
    split
    · obtain ⟨h1, h2, h3⟩ := rehash_spec hv _ hpos
      have hpos2 :
          0 < (rehash h (t.buckets_.set n (t.buckets_.getD n [] ++ [(k, v)]))).length := by
        rw [h1]
        simp only [kGrowthCoefficient]
        omega
      exact hi.of_perm_cons hpos2 h2 (h3.trans hperm) hnew
    · exact hi.of_perm_cons hpos hp hperm hnew

theorem Inv.inv_stepWith {h : Int → Int → Int} (hv : RangeValid h)
    (grows : Int → Nat → ℚ → Bool) {t : HashTable} (hi : Inv h t) (op : Op) :
    Inv h (t.stepWith h grows op) := by
  cases op with
  | Put k v => exact (hi.inv_putWith hv grows k v).1
  | Remove k => exact (hi.inv_remove hv k).1

theorem Inv.inv_runWith {h : Int → Int → Int} (hv : RangeValid h)
    (grows : Int → Nat → ℚ → Bool) {t : HashTable} (hi : Inv h t) (ops : List Op) :
    Inv h (t.runWith h grows ops) := by
  induction ops generalizing t with
  | nil => exact hi
  | cons op ops ih => exact ih (hi.inv_stepWith hv grows op)

theorem ReachableWith.inv_of_reachable {h : Int → Int → Int} (hv : RangeValid h)
    {grows : Int → Nat → ℚ → Bool} {t : HashTable} (hr : ReachableWith h grows t) :
    Inv h t := by
  obtain ⟨capacity, load_factor, t0, ops, hc, rfl⟩ := hr
  exact (Inv.inv_construct hc).inv_runWith hv grows ops

theorem ReachableWith.of_fresh (h : Int → Int → Int) (grows : Int → Nat → ℚ → Bool)
    {capacity : Int} {load_factor : ℚ} {t : HashTable}
    (hc : HashTable.construct capacity load_factor = .ok t) : ReachableWith h grows t :=
  ⟨capacity, load_factor, t, [], hc, rfl⟩

theorem ReachableWith.reach_stepWith {h : Int → Int → Int} {grows : Int → Nat → ℚ → Bool}
    {t : HashTable} (hr : ReachableWith h grows t) (op : Op) :
    ReachableWith h grows (t.stepWith h grows op) := by
  obtain ⟨capacity, load_factor, t0, ops, hc, rfl⟩ := hr
  exact ⟨capacity, load_factor, t0, ops ++ [op], hc,
    by simp [HashTable.runWith, List.foldl_append]⟩

theorem ReachableWith.reach_putWith {h : Int → Int → Int} {grows : Int → Nat → ℚ → Bool}
    {t : HashTable} (hr : ReachableWith h grows t) (k : Int) (v : String) :
    ReachableWith h grows (t.PutWith h grows k v) :=
  hr.reach_stepWith (.Put k v)

/-! ## Evaluating the `binary64` rounding -/

theorem log_two_eq {x : ℚ} {e : Int} (hx : 0 < x) (h1 : (2 : ℚ) ^ e ≤ x)
    (h2 : x < (2 : ℚ) ^ (e + 1)) : Int.log 2 x = e := by
  have hb : 1 < (2 : Nat) := by norm_num
  have hle : e ≤ Int.log 2 x := by
    rw [← Int.zpow_le_iff_le_log hb hx]
    exact_mod_cast h1
  have hlt : Int.log 2 x < e + 1 := by
    rw [← Int.lt_zpow_iff_log_lt hb hx]
    exact_mod_cast h2
  omega

theorem roundNearestEven_intCast (m : Int) : roundNearestEven (m : ℚ) = m := by
  unfold roundNearestEven
  rw [Int.floor_intCast]
  simp

theorem binary64_of_log {x : ℚ} {e : Int} (hx : x ≠ 0) (h1 : (2 : ℚ) ^ e ≤ |x|)
    (h2 : |x| < (2 : ℚ) ^ (e + 1)) :
    binary64 x = (roundNearestEven (x / 2 ^ (e - 52)) : ℚ) * 2 ^ (e - 52) := by
  unfold binary64
  rw [if_neg hx, log_two_eq (abs_pos.2 hx) h1 h2]

/-- A value with a 53-bit significand is its own rounding. -/
theorem binary64_exact (m e : Int) (h1 : 2 ^ 52 ≤ |m|) (h2 : |m| < 2 ^ 53) :
    binary64 ((m : ℚ) * 2 ^ e) = (m : ℚ) * 2 ^ e := by
  have hm : m ≠ 0 := by
    intro h0
    rw [h0] at h1
    norm_num at h1
  have hmq : (m : ℚ) ≠ 0 := by exact_mod_cast hm
  have h2pos : (0 : ℚ) < 2 ^ e := by positivity
  have hx : (m : ℚ) * 2 ^ e ≠ 0 := mul_ne_zero hmq (ne_of_gt h2pos)
  have habs : |(m : ℚ) * 2 ^ e| = (|m| : Int) * 2 ^ e := by
    rw [abs_mul, abs_of_pos h2pos, Int.cast_abs]
  have h1q : ((2 : ℚ) ^ (52 : Int)) ≤ ((|m| : Int) : ℚ) := by exact_mod_cast h1
  have h2q : (((|m| : Int) : ℚ)) < (2 : ℚ) ^ (53 : Int) := by exact_mod_cast h2
  have hlo : (2 : ℚ) ^ (e + 52) ≤ |(m : ℚ) * 2 ^ e| := by
    rw [habs, zpow_add₀ (by norm_num : (2 : ℚ) ≠ 0), mul_comm]
    exact mul_le_mul_of_nonneg_right h1q h2pos.le
  have hhi : |(m : ℚ) * 2 ^ e| < (2 : ℚ) ^ (e + 52 + 1) := by
    rw [habs, show e + 52 + 1 = e + 53 by ring, zpow_add₀ (by norm_num : (2 : ℚ) ≠ 0),
      mul_comm ((2 : ℚ) ^ e)]
    exact mul_lt_mul_of_pos_right h2q h2pos
  rw [binary64_of_log hx hlo hhi, show e + 52 - 52 = e by ring,
    mul_div_assoc, div_self (ne_of_gt h2pos), mul_one, roundNearestEven_intCast]

theorem binary64_one : binary64 1 = 1 := by
  have h := binary64_exact (2 ^ 52) (-52) (by norm_num) (by norm_num)
  have hval : (((2 ^ 52 : Int) : ℚ)) * 2 ^ (-52 : Int) = 1 := by norm_num
  rwa [hval] at h

theorem binary64_ten : binary64 10 = 10 := by
  have h := binary64_exact (10 * 2 ^ 49) (-49) (by norm_num) (by norm_num)
  have hval : (((10 * 2 ^ 49 : Int) : ℚ)) * 2 ^ (-49 : Int) = 10 := by norm_num
  rwa [hval] at h

/-- The quotient `1.0 / 10.0` in `binary64`: the value of the literal `0.1`,
above `1/10`. -/
theorem binary64_tenth :
    binary64 (1 / 10) = 3602879701896397 / 36028797018963968 := by
  have hx : (1 / 10 : ℚ) ≠ 0 := by norm_num
  have h1 : (2 : ℚ) ^ (-4 : Int) ≤ |(1 / 10 : ℚ)| := by
    rw [abs_of_pos (by norm_num)]
    norm_num
  have h2 : |(1 / 10 : ℚ)| < (2 : ℚ) ^ ((-4 : Int) + 1) := by
    rw [abs_of_pos (by norm_num)]
    norm_num
  rw [binary64_of_log hx h1 h2]
  have hq : (1 / 10 : ℚ) / 2 ^ ((-4 : Int) - 52) = 36028797018963968 / 5 := by norm_num
  have hfloor : ⌊(36028797018963968 / 5 : ℚ)⌋ = 7205759403792793 := by
    rw [Int.floor_eq_iff]
    constructor <;> norm_num
  have hround : roundNearestEven (36028797018963968 / 5 : ℚ) = 7205759403792794 := by
    unfold roundNearestEven
    rw [hfloor]
    norm_num
  rw [hq, hround]
  norm_num

theorem binary64_two_zpow (e : Int) : binary64 ((2 : ℚ) ^ e) = (2 : ℚ) ^ e := by
  have h := binary64_exact (2 ^ 52) (e - 52) (by norm_num) (by norm_num)
  have hval : (((2 ^ 52 : Int) : ℚ)) * 2 ^ (e - 52) = (2 : ℚ) ^ e := by
    rw [zpow_sub₀ (by norm_num : (2 : ℚ) ≠ 0)]
    have h52 : ((2 : ℚ) ^ (52 : Int)) = ((2 ^ 52 : Int) : ℚ) := by norm_num
    rw [h52]
    have hne : (((2 ^ 52 : Int) : ℚ)) ≠ 0 := by norm_num
    field_simp
  rwa [hval] at h

theorem binary64Grows_one_ten : binary64Grows 1 10 doubleTenth = true := by
  unfold binary64Grows
  rw [if_neg (by norm_num)]
  simp only [Int.cast_one, Nat.cast_ofNat, decide_eq_true_eq]
  rw [binary64_one, binary64_ten, binary64_tenth]
  exact le_of_eq rfl

theorem construct_ten :
    HashTable.construct 10 doubleTenth =
      .ok { load_factor_ := doubleTenth, num_keys_ := 0, buckets_ := List.replicate 10 [] } := by
  have h0 : ¬ ((10 : Int) ≤ 0) := by norm_num
  have h1 : ¬ (doubleTenth ≤ 0 ∨ doubleTenth > 1) := by
    unfold doubleTenth
    norm_num
  unfold HashTable.construct
  rw [if_neg h0, if_neg h1]
  rfl

theorem Inv.search_putWith {h : Int → Int → Int} (hv : RangeValid h)
    (grows : Int → Nat → ℚ → Bool) {t : HashTable} (hi : Inv h t) (k : Int) (v : String) :
    (t.PutWith h grows k v).Search h k = some v := by
  obtain ⟨hinv, hmem⟩ := hi.inv_putWith hv grows k v
  exact (hinv.search_eq_some_iff hv k v).2 ((hmem (k, v)).2 (Or.inl rfl))

theorem Inv.search_putWith_ne {h : Int → Int → Int} (hv : RangeValid h)
    (grows : Int → Nat → ℚ → Bool) {t : HashTable} (hi : Inv h t) {k k' : Int}
    (hne : k ≠ k') (v : String) :
    (t.PutWith h grows k v).Search h k' = t.Search h k' := by
  obtain ⟨hinv, hmem⟩ := hi.inv_putWith hv grows k v
  apply Option.ext
  intro v'
  simp only [Option.mem_def]
  rw [hinv.search_eq_some_iff hv, hi.search_eq_some_iff hv, hmem]
  constructor
  · rintro (heq | ⟨hm, _⟩)
    · exact absurd (congrArg Prod.fst heq).symm hne
    · exact hm
  · intro hm
    exact Or.inr ⟨hm, fun heq => hne heq.symm⟩

/-- The table `New(10, 0.1); Put(1, "a")` of the source: the first insertion
already grows it, because `1.0 / 10.0` is the `double` `0.1`. -/
theorem sample_tenth_facts :
    ReachableWith modHash binary64Grows
        (HashTable.PutWith modHash binary64Grows
          { load_factor_ := doubleTenth, num_keys_ := 0, buckets_ := List.replicate 10 [] }
          1 "a") ∧
      (HashTable.PutWith modHash binary64Grows
          { load_factor_ := doubleTenth, num_keys_ := 0, buckets_ := List.replicate 10 [] }
          1 "a").num_keys_ = 1 ∧
      (HashTable.PutWith modHash binary64Grows
          { load_factor_ := doubleTenth, num_keys_ := 0, buckets_ := List.replicate 10 [] }
          1 "a").load_factor_ = doubleTenth ∧
      (HashTable.PutWith modHash binary64Grows
          { load_factor_ := doubleTenth, num_keys_ := 0, buckets_ := List.replicate 10 [] }
          1 "a").buckets_.length = 20 ∧
      (HashTable.PutWith modHash binary64Grows
          { load_factor_ := doubleTenth, num_keys_ := 0, buckets_ := List.replicate 10 [] }
          1 "a").Search modHash 1 = some "a" ∧
      (HashTable.PutWith modHash binary64Grows
          { load_factor_ := doubleTenth, num_keys_ := 0, buckets_ := List.replicate 10 [] }
          1 "a").Search modHash 2 = none := by
  have hr0 := ReachableWith.of_fresh modHash binary64Grows construct_ten
  have hi0 := hr0.inv_of_reachable rangeValid_modHash
  have hs0 := search_construct construct_ten modHash
  obtain ⟨hn, hl, _⟩ := PutWith_new_buckets modHash binary64Grows _ 1 "a" (hs0 1)
  have hlen := PutWith_new_length modHash binary64Grows _ 1 "a" (hs0 1)
  refine ⟨hr0.reach_putWith 1 "a", hn, hl, ?_, hi0.search_putWith rangeValid_modHash _ 1 "a", ?_⟩
  · rw [hlen]
    simp only [zero_add, List.length_replicate]
    rw [if_pos binary64Grows_one_ten]
  · rw [hi0.search_putWith_ne rangeValid_modHash binary64Grows (by decide) "a"]
    exact hs0 2

theorem static_cast_int_of_lt {n : Nat} (hn : n < 2 ^ 31) : static_cast_int n = (n : Int) := by
  unfold static_cast_int
  have h31 : (2 : Int) ^ 31 = 2147483648 := by norm_num
  have h32 : (2 : Int) ^ 32 = 4294967296 := by norm_num
  have hn' : n < 2147483648 := by
    have : (2 : Nat) ^ 31 = 2147483648 := by norm_num
    omega
  rw [h31, h32]
  omega

theorem capacity_int_of_lt {t : HashTable} (hlt : t.buckets_.length < 2 ^ 31) :
    t.capacity_int = t.capacity :=
  static_cast_int_of_lt hlt

theorem binary64Grows_wrap : binary64Grows 1 1073741824 (1 / 1099511627776) = true := by
  unfold binary64Grows
  rw [if_neg (by norm_num)]
  simp only [Int.cast_one, Nat.cast_ofNat, decide_eq_true_eq]
  have h30 : binary64 1073741824 = 1073741824 := by
    have := binary64_two_zpow 30
    norm_num at this
    exact this
  have hq : binary64 (1 / 1073741824) = 1 / 1073741824 := by
    have := binary64_two_zpow (-30)
    norm_num at this
    exact this
  rw [binary64_one, h30, hq]
  norm_num

theorem construct_fields {capacity : Int} {load_factor : ℚ} {t : HashTable}
    (hc : HashTable.construct capacity load_factor = .ok t) :
    t.num_keys_ = 0 ∧ t.load_factor_ = load_factor ∧ t.buckets_.length = capacity.toNat := by
  obtain ⟨_, _, _, rfl⟩ := (construct_ok_iff _ _ _).1 hc
  exact ⟨rfl, rfl, List.length_replicate _ _⟩

theorem runWith_singleton (h : Int → Int → Int) (grows : Int → Nat → ℚ → Bool)
    (t : HashTable) (op : Op) : t.runWith h grows [op] = t.stepWith h grows op := rfl

theorem stepWith_Put (h : Int → Int → Int) (grows : Int → Nat → ℚ → Bool)
    (t : HashTable) (k : Int) (v : String) :
    t.stepWith h grows (.Put k v) = t.PutWith h grows k v := rfl

/-- The table `New(2^30, 2^-40); Put(1, "a")`: the first insertion doubles the
`2^30` buckets. -/
theorem wrap_sample_facts (h : Int → Int → Int) :
    ∃ t0 : HashTable, HashTable.construct 1073741824 (1 / 1099511627776) = .ok t0 ∧
      t0.buckets_.length = 1073741824 ∧
      (t0.PutWith h binary64Grows 1 "a").buckets_.length = 2147483648 := by
  obtain ⟨t0, hc⟩ : ∃ t0 : HashTable,
      HashTable.construct 1073741824 (1 / 1099511627776) = .ok t0 :=
    ⟨_, (construct_ok_iff _ _ _).2 ⟨by norm_num, by norm_num, by norm_num, rfl⟩⟩
  obtain ⟨hn0, hl0, hlen0⟩ := construct_fields hc
  have hlen0' : t0.buckets_.length = 1073741824 := by
    rw [hlen0]
    rfl
  refine ⟨t0, hc, hlen0', ?_⟩
  rw [PutWith_new_length h binary64Grows t0 1 "a" (search_construct hc h 1), hn0, hl0, hlen0',
    zero_add, if_pos binary64Grows_wrap]

/-! ## Claims -/

/-- C6: on every reachable table, `Remove(k)` of a key that is not stored
(`Search(k)` is empty) returns the empty result and the table afterwards is the
table before: same buckets, same `Size()`, same `Capacity()`.  On a reachable
table with `IsEmpty()` true (a fresh one in particular) every key is such a key
and `IsEmpty()` is still true afterwards. -/
theorem Remove_absent (h : Int → Int → Int) (hv : RangeValid h) (t : HashTable)
    (hr : Reachable h t) (k : Int) :
    (t.Search h k = none →
        t.Remove h k = (none, t) ∧ (t.Remove h k).2.buckets_ = t.buckets_ ∧
          (t.Remove h k).2.size = t.size ∧ (t.Remove h k).2.capacity = t.capacity) ∧
      (t.empty = true → t.Remove h k = (none, t) ∧ (t.Remove h k).2.empty = true) := by
  have key : t.Search h k = none → t.Remove h k = (none, t) := by
    intro hs
    obtain ⟨_, _, hsh⟩ := Remove_shape h t k
    rcases hsh with ⟨_, heq⟩ | ⟨hne, _⟩
    · exact heq
    · exact absurd hs hne
  constructor
  · intro hs
    have heq := key hs
    exact ⟨heq, by rw [heq], by rw [heq], by rw [heq]⟩
  · intro hempty
    have heq := key ((hr.inv hv).search_of_empty hv hempty k)
    exact ⟨heq, by rw [heq]; exact hempty⟩

/-- Witness of C6: `Remove(7)` on the fresh table `New(2, 1)`, and `Remove(3)` on
`New(2, 1); Put(1, "a")`, where key 3 is absent from the chain of key 1. -/
theorem Remove_absent_witness :
    RangeValid modHash ∧
      Reachable modHash { load_factor_ := 1, num_keys_ := 0, buckets_ := [[], []] } ∧
      Reachable modHash { load_factor_ := 1, num_keys_ := 1, buckets_ := [[], [(1, "a")]] } ∧
      HashTable.Remove modHash { load_factor_ := 1, num_keys_ := 0, buckets_ := [[], []] } 7 =
        (none, { load_factor_ := 1, num_keys_ := 0, buckets_ := [[], []] }) ∧
      HashTable.Remove modHash
          { load_factor_ := 1, num_keys_ := 1, buckets_ := [[], [(1, "a")]] } 3 =
        (none, { load_factor_ := 1, num_keys_ := 1, buckets_ := [[], [(1, "a")]] }) :=
  ⟨rangeValid_modHash, Reachable.of_construct modHash construct_two_one, reachable_sample,
    ((Remove_absent modHash rangeValid_modHash _
      (Reachable.of_construct modHash construct_two_one) 7).2 (by decide)).1,
    ((Remove_absent modHash rangeValid_modHash _ reachable_sample 3).1 (by decide)).1⟩

/-- C9: for every `capacity > 0` and every load factor in `(0, 1]` the
constructor succeeds, and the new table has `Size() == 0`,
`Capacity() == capacity`, `LoadFactor() == load_factor`, `capacity` buckets, all
of them empty, so that `Search` of any key is empty (whatever the hash
function). -/
theorem construct_valid (capacity : Int) (load_factor : ℚ) (hcap : 0 < capacity)
    (hpos : 0 < load_factor) (hle : load_factor ≤ 1) :
    ∃ t : HashTable, HashTable.construct capacity load_factor = .ok t ∧
      t.size = 0 ∧ t.capacity = capacity ∧ t.load_factor = load_factor ∧
      (∀ b ∈ t.buckets_, b = []) ∧
      ∀ (h : Int → Int → Int) (k : Int), t.Search h k = none := by
  refine ⟨{ load_factor_ := load_factor, num_keys_ := 0,
            buckets_ := List.replicate capacity.toNat [] },
    (construct_ok_iff _ _ _).2 ⟨hcap, hpos, hle, rfl⟩, rfl, ?_, rfl, ?_, ?_⟩
  · simp only [HashTable.capacity, List.length_replicate]
    omega
  · intro b hb
    exact List.eq_of_mem_replicate hb
  · exact search_construct ((construct_ok_iff _ _ _).2 ⟨hcap, hpos, hle, rfl⟩)

/-- Witness of C9: `New(4, 3/4)`. -/
theorem construct_valid_witness :
    (0 : Int) < 4 ∧ (0 : ℚ) < 3 / 4 ∧ (3 / 4 : ℚ) ≤ 1 ∧
      ∃ t : HashTable, HashTable.construct 4 (3 / 4) = .ok t ∧ t.size = 0 ∧ t.capacity = 4 :=
  match construct_valid 4 (3 / 4) (by decide) (by norm_num) (by norm_num) with
  | ⟨t, h1, h2, h3, _⟩ => ⟨by decide, by norm_num, by norm_num, t, h1, h2, h3⟩

/-- C10: the constructor fails exactly when `capacity <= 0` or
`load_factor <= 0` or `load_factor > 1`; the failure is `InvalidCapacity`
exactly when `capacity <= 0`, and is the different error `InvalidLoadFactor`
exactly when the capacity is valid and the load factor is out of range; a
table is produced exactly when no check fails. -/
theorem construct_fails_iff (capacity : Int) (load_factor : ℚ) :
    ((∃ e : Exn, HashTable.construct capacity load_factor = .error e) ↔
        (capacity ≤ 0 ∨ load_factor ≤ 0 ∨ load_factor > 1)) ∧
      (HashTable.construct capacity load_factor = .error InvalidCapacity ↔ capacity ≤ 0) ∧
      (HashTable.construct capacity load_factor = .error InvalidLoadFactor ↔
        (0 < capacity ∧ (load_factor ≤ 0 ∨ load_factor > 1))) ∧
      InvalidCapacity ≠ InvalidLoadFactor ∧
      ((∃ t : HashTable, HashTable.construct capacity load_factor = .ok t) ↔
        ¬ (capacity ≤ 0 ∨ load_factor ≤ 0 ∨ load_factor > 1)) := by
  have hne : InvalidCapacity ≠ InvalidLoadFactor := by decide
  unfold HashTable.construct
  by_cases hc : capacity ≤ 0
  · simp only [hc, if_true, true_or, iff_true, not_true_eq_false, iff_false]
    refine ⟨⟨_, rfl⟩, rfl, ?_, hne, ?_⟩
    · constructor
      · intro hx
        exact absurd (Except.error.inj hx) hne
      · rintro ⟨h1, _⟩; omega
    · rintro ⟨t, ht⟩; cases ht
  · have hc' : 0 < capacity := by omega
    by_cases hl : load_factor ≤ 0 ∨ load_factor > 1
    · simp only [hc, hl, if_true, if_false, or_true, iff_true, not_true_eq_false, iff_false,
        false_or, hc', true_and]
      refine ⟨⟨_, rfl⟩, ?_, rfl, hne, ?_⟩
      · intro hx
        exact hne (Except.error.inj hx).symm
      · rintro ⟨t, ht⟩; cases ht
    · simp only [hc, hl, if_false, or_false, iff_false, false_or, not_false_eq_true, iff_true,
        and_false]
      refine ⟨?_, ?_, ?_, hne, ⟨_, rfl⟩⟩
      · rintro ⟨e, he⟩; cases he
      · intro hx; cases hx
      · intro hx; cases hx

/-- C13: for every range-valid hash function, on `New(4, 0.75)` the capacity is
still 4 after `Put(1, "a")` and after `Put(2, "b")`; the third call
`Put(3, "c")` reaches `3 / 4 ≥ 0.75` and grows the table: `Size() == 3`,
`Capacity() == 8`, and `Search` gives `"a"`, `"b"`, `"c"` for the keys 1, 2, 3. -/
theorem scenario_third_put_grows (h : Int → Int → Int) (hv : RangeValid h) :
    ∃ t0 : HashTable, HashTable.construct 4 (3 / 4) = .ok t0 ∧
      (t0.Put h 1 "a").capacity = 4 ∧
      ((t0.Put h 1 "a").Put h 2 "b").capacity = 4 ∧
      (((t0.Put h 1 "a").Put h 2 "b").Put h 3 "c").size = 3 ∧
      (((t0.Put h 1 "a").Put h 2 "b").Put h 3 "c").capacity = 8 ∧
      (((t0.Put h 1 "a").Put h 2 "b").Put h 3 "c").Search h 1 = some "a" ∧
      (((t0.Put h 1 "a").Put h 2 "b").Put h 3 "c").Search h 2 = some "b" ∧
      (((t0.Put h 1 "a").Put h 2 "b").Put h 3 "c").Search h 3 = some "c" := by
  obtain ⟨t0, hc⟩ : ∃ t0 : HashTable, HashTable.construct 4 (3 / 4) = .ok t0 :=
    ⟨_, construct_four⟩
  refine ⟨t0, hc, ?_⟩
  obtain ⟨_, _, _, ht0⟩ := (construct_ok_iff _ _ _).1 hc
  have hn0 : t0.num_keys_ = 0 := by rw [ht0]
  have hl0 : t0.buckets_.length = 4 := by rw [ht0]; rfl
  have hf0 : t0.load_factor_ = 3 / 4 := by rw [ht0]
  have hr0 : Reachable h t0 := Reachable.of_construct h hc
  have hr1 := hr0.reach_put 1 "a"
  have hr2 := hr1.reach_put 2 "b"
  have hs0 : t0.Search h 1 = none := search_construct hc h 1
  obtain ⟨hn1, hf1, hl1⟩ := Put_new_size h t0 1 "a" hs0
  rw [hn0, hl0, hf0] at hl1
  rw [hn0] at hn1
  rw [hf0] at hf1
  rw [if_neg (by norm_num)] at hl1
  have hs1 : (t0.Put h 1 "a").Search h 2 = none := by
    rw [(hr0.inv hv).search_put_ne hv (by decide) "a"]
    exact search_construct hc h 2
  obtain ⟨hn2, hf2, hl2⟩ := Put_new_size h _ 2 "b" hs1
  rw [hn1, hl1, hf1] at hl2
  rw [hn1] at hn2
  rw [hf1] at hf2
  rw [if_neg (by norm_num)] at hl2
  have hs2 : ((t0.Put h 1 "a").Put h 2 "b").Search h 3 = none := by
    rw [(hr1.inv hv).search_put_ne hv (by decide) "b",
      (hr0.inv hv).search_put_ne hv (by decide) "a"]
    exact search_construct hc h 3
  obtain ⟨hn3, _, hl3⟩ := Put_new_size h _ 3 "c" hs2
  rw [hn2, hl2, hf2] at hl3
  rw [hn2] at hn3
  rw [if_pos (by norm_num)] at hl3
  refine ⟨?_, ?_, ?_, ?_, ?_, ?_, hr2.search_put hv 3 "c"⟩
  · unfold HashTable.capacity; rw [hl1]; rfl
  · unfold HashTable.capacity; rw [hl2]; rfl
  · unfold HashTable.size; rw [hn3]; rfl
  · unfold HashTable.capacity; rw [hl3]; rfl
  · rw [(hr2.inv hv).search_put_ne hv (by decide) "c",
      (hr1.inv hv).search_put_ne hv (by decide) "b"]
    exact hr0.search_put hv 1 "a"
  · rw [(hr2.inv hv).search_put_ne hv (by decide) "c"]
    exact hr1.search_put hv 2 "b"

/-- Witness of C13 with the remainder hash. -/
theorem scenario_third_put_grows_witness :
    RangeValid modHash ∧
      ∃ t0 : HashTable, HashTable.construct 4 (3 / 4) = .ok t0 ∧
        (((t0.Put modHash 1 "a").Put modHash 2 "b").Put modHash 3 "c").capacity = 8 :=
  match scenario_third_put_grows modHash rangeValid_modHash with
  | ⟨t0, hc, _, _, _, hcap, _⟩ => ⟨rangeValid_modHash, t0, hc, hcap⟩

/-- C12, as stated, fails: on `New(2^30, 2^-40)` the call `Put(1, "a")` doubles
the `2^30` buckets to `2^31`, and `Capacity()`, the conversion of that count to
`int`, is `-2^31`: neither `c` nor `2 * c`, and below the initial capacity. -/
theorem capacity_wrap_counterexample :
    ∃ t0 : HashTable, HashTable.construct 1073741824 (1 / 1099511627776) = .ok t0 ∧
      t0.capacity_int = 1073741824 ∧
      (t0.PutWith modHash binary64Grows 1 "a").buckets_.length = 2147483648 ∧
      (t0.PutWith modHash binary64Grows 1 "a").capacity_int = -2147483648 ∧
      ¬ ((t0.PutWith modHash binary64Grows 1 "a").capacity_int = t0.capacity_int ∨
        (t0.PutWith modHash binary64Grows 1 "a").capacity_int = 2 * t0.capacity_int) ∧
      (t0.PutWith modHash binary64Grows 1 "a").capacity_int < 1073741824 := by
  obtain ⟨t0, hc, hlen0, hlen1⟩ := wrap_sample_facts modHash
  have h0 : t0.capacity_int = 1073741824 := by
    unfold HashTable.capacity_int
    rw [hlen0]
    rfl
  have h1 : (t0.PutWith modHash binary64Grows 1 "a").capacity_int = -2147483648 := by
    unfold HashTable.capacity_int
    rw [hlen1]
    rfl
  refine ⟨t0, hc, h0, hlen1, h1, ?_, ?_⟩
  · rw [h0, h1]
    norm_num
  · rw [h1]
    norm_num

/-- C12, amended: whatever the outcome of the growth test, on every table
obtained from a successful construction by `Put`/`Remove` calls, with capacity
`c`: `Remove(k)` leaves `Capacity() == c` for every `k`; after one `Put` that
leaves fewer than `2^31` buckets, `Capacity()` is `c` or `2 * c`; and while the
table has fewer than `2^31` buckets, `Capacity()` is the initial capacity times
a power of two, so not below the initial capacity.  The bucket count
`buckets_.size()` itself is always the initial capacity times a power of two. -/
theorem capacity_changes (h : Int → Int → Int) (grows : Int → Nat → ℚ → Bool)
    (capacity : Int) (load_factor : ℚ) (t0 : HashTable)
    (hc : HashTable.construct capacity load_factor = .ok t0) (ops : List Op) :
    (∀ k : Int,
        ((t0.runWith h grows ops).Remove h k).2.capacity_int =
          (t0.runWith h grows ops).capacity_int) ∧
      (∀ (k : Int) (v : String),
        ((t0.runWith h grows ops).PutWith h grows k v).buckets_.length < 2 ^ 31 →
          ((t0.runWith h grows ops).PutWith h grows k v).capacity_int =
              (t0.runWith h grows ops).capacity_int ∨
            ((t0.runWith h grows ops).PutWith h grows k v).capacity_int =
              2 * (t0.runWith h grows ops).capacity_int) ∧
      ((t0.runWith h grows ops).buckets_.length < 2 ^ 31 →
        (∃ n : Nat, (t0.runWith h grows ops).capacity_int = capacity * 2 ^ n) ∧
          capacity ≤ (t0.runWith h grows ops).capacity_int) ∧
      ∃ n : Nat, ((t0.runWith h grows ops).buckets_.length : Int) = capacity * 2 ^ n := by
  obtain ⟨hpos, _, _, ht0⟩ := (construct_ok_iff _ _ _).1 hc
  have hlen0 : ((t0.buckets_.length : Nat) : Int) = capacity := by
    rw [ht0]
    simp only [List.length_replicate]
    omega
  obtain ⟨n, hn⟩ := length_runWith h grows t0 ops
  have hcount : ((t0.runWith h grows ops).buckets_.length : Int) = capacity * 2 ^ n := by
    rw [hn]
    push_cast
    rw [hlen0]
  refine ⟨?_, ?_, ?_, ⟨n, hcount⟩⟩
  · intro k
    unfold HashTable.capacity_int
    rw [(Remove_shape h _ k).2.1]
  · intro k v hlt
    unfold HashTable.capacity_int
    rcases length_PutWith h grows (t0.runWith h grows ops) k v with hlen | hlen
    · left
      rw [hlen]
    · right
      have hold : (t0.runWith h grows ops).buckets_.length < 2 ^ 31 := by
        rw [hlen] at hlt
        omega
      rw [static_cast_int_of_lt hlt, static_cast_int_of_lt hold, hlen]
      push_cast
      ring
  · intro hlt
    have hcap : (t0.runWith h grows ops).capacity_int = capacity * 2 ^ n := by
      unfold HashTable.capacity_int
      rw [static_cast_int_of_lt hlt, hcount]
    refine ⟨⟨n, hcap⟩, ?_⟩
    rw [hcap]
    have h2 : (1 : Int) ≤ 2 ^ n := one_le_pow₀ (by norm_num)
    exact le_mul_of_one_le_right hpos.le h2

/-- Witness of the amended C12 with the test of the source: `New(10, 0.1)` with
the call `Put(1, "a")`, after which the table has 20 buckets. -/
theorem capacity_changes_witness :
    HashTable.construct 10 doubleTenth =
        .ok { load_factor_ := doubleTenth, num_keys_ := 0, buckets_ := List.replicate 10 [] } ∧
      (HashTable.runWith modHash binary64Grows
        { load_factor_ := doubleTenth, num_keys_ := 0, buckets_ := List.replicate 10 [] }
        [.Put 1 "a"]).buckets_.length < 2 ^ 31 ∧
      (10 : Int) ≤ (HashTable.runWith modHash binary64Grows
        { load_factor_ := doubleTenth, num_keys_ := 0, buckets_ := List.replicate 10 [] }
        [.Put 1 "a"]).capacity_int := by
  obtain ⟨_, _, _, hlen, _, _⟩ := sample_tenth_facts
  have hlt : (HashTable.runWith modHash binary64Grows
      { load_factor_ := doubleTenth, num_keys_ := 0, buckets_ := List.replicate 10 [] }
      [.Put 1 "a"]).buckets_.length < 2 ^ 31 := by
    rw [runWith_singleton, stepWith_Put, hlen]
    norm_num
  exact ⟨construct_ten, hlt,
    ((capacity_changes modHash binary64Grows 10 doubleTenth _ construct_ten
      [.Put 1 "a"]).2.2.1 hlt).2⟩

/-- C19, as stated, fails: the table `New(2^30, 2^-40); Put(1, "a")` is
reachable and has `2^31` buckets, so `Capacity()`, the conversion of that
count to `int`, is `-2^31`: not positive and not `buckets_.size()`; the next
`hash(key)` passes it to `utils::hash`, outside the range contract. -/
theorem capacity_not_positive_counterexample :
    RangeValid modHash ∧
      ∃ t0 : HashTable, HashTable.construct 1073741824 (1 / 1099511627776) = .ok t0 ∧
        ReachableWith modHash binary64Grows (t0.PutWith modHash binary64Grows 1 "a") ∧
        ((t0.PutWith modHash binary64Grows 1 "a").buckets_.length : Int) = 2147483648 ∧
        (t0.PutWith modHash binary64Grows 1 "a").capacity_int = -2147483648 ∧
        ¬ (0 < (t0.PutWith modHash binary64Grows 1 "a").capacity_int) ∧
        ((t0.PutWith modHash binary64Grows 1 "a").buckets_.length : Int) ≠
          (t0.PutWith modHash binary64Grows 1 "a").capacity_int := by
  obtain ⟨t0, hc, _, hlen1⟩ := wrap_sample_facts modHash
  have h1 : (t0.PutWith modHash binary64Grows 1 "a").capacity_int = -2147483648 := by
    unfold HashTable.capacity_int
    rw [hlen1]
    rfl
  refine ⟨rangeValid_modHash, t0, hc,
    (ReachableWith.of_fresh modHash binary64Grows hc).reach_putWith 1 "a", ?_, h1, ?_, ?_⟩
  · rw [hlen1]
    rfl
  · rw [h1]
    norm_num
  · rw [h1, hlen1]
    norm_num

/-- C19, amended: for every range-valid hash function and whatever the outcome
of the growth test, every reachable table with fewer than `2^31` buckets has
`Capacity() > 0` and `buckets_.size() == Capacity()`; for every key the index
`hash(key, capacity)` used by `Search`, `Put` and `Remove` is a position of the
vector, where the total read and write of the embedding are the read and write
of that position; and when the doubled bucket count is below `2^31` too, the
index `hash(key, 2 * capacity)` used by the rehash is a position of the new
vector, which has `2 * capacity` buckets throughout. -/
theorem index_in_bounds (h : Int → Int → Int) (hv : RangeValid h)
    (grows : Int → Nat → ℚ → Bool) (t : HashTable) (hr : ReachableWith h grows t)
    (hlt : t.buckets_.length < 2 ^ 31) :
    0 < t.capacity_int ∧ (t.buckets_.length : Int) = t.capacity_int ∧
      (∀ key : Int, ∃ (i : Nat) (hi : i < t.buckets_.length),
        h key t.capacity_int = (i : Int) ∧ t.hash h key = (i : Int) ∧
          bucketAt t.buckets_ (h key t.capacity_int) = t.buckets_.get ⟨i, hi⟩ ∧
          ∀ b : Bucket, setBucket t.buckets_ (h key t.capacity_int) b = t.buckets_.set i b ∧
            (t.buckets_.set i b).getD i [] = b) ∧
      (∀ (new_buckets : List Bucket) (key : Int),
        new_buckets.length = t.buckets_.length * kGrowthCoefficient →
        new_buckets.length < 2 ^ 31 →
          static_cast_int new_buckets.length = (new_buckets.length : Int) ∧
          (0 ≤ h key (static_cast_int new_buckets.length) ∧
            h key (static_cast_int new_buckets.length) < (new_buckets.length : Int)) ∧
          ∀ bucket : Bucket,
            (rehashBucket h new_buckets bucket).length =
              t.buckets_.length * kGrowthCoefficient) := by
  have hi := hr.inv_of_reachable hv
  have hcap : t.capacity_int = (t.buckets_.length : Int) := static_cast_int_of_lt hlt
  refine ⟨?_, hcap.symm, ?_, ?_⟩
  · rw [hcap]
    exact_mod_cast hi.pos
  · intro key
    obtain ⟨i, hilt, hk⟩ := hv.index key hi.pos
    have hki : t.hash h key = (i : Int) := hk
    refine ⟨i, hilt, by rw [hcap]; exact hk, hki, ?_, fun b => ⟨?_, getD_set_self _ _ _ hilt⟩⟩
    · rw [hcap, hk, bucketAt_natCast]
      simp [List.getD_eq_getElem?_getD, hilt]
    · rw [hcap, hk, setBucket_natCast]
  · intro nb key hlen hnb
    have hpos : (0 : Int) < (nb.length : Int) := by
      rw [hlen]
      have := hi.pos
      simp only [kGrowthCoefficient]
      omega
    rw [static_cast_int_of_lt hnb]
    exact ⟨rfl, hv key _ hpos, fun bucket => by rw [length_rehashBucket, hlen]⟩

/-- Witness of the amended C19 with the test of the source, on the table
`New(10, 0.1); Put(1, "a")`, which has 20 buckets. -/
theorem index_in_bounds_witness :
    RangeValid modHash ∧
      ReachableWith modHash binary64Grows
        (HashTable.PutWith modHash binary64Grows
          { load_factor_ := doubleTenth, num_keys_ := 0, buckets_ := List.replicate 10 [] }
          1 "a") ∧
      (HashTable.PutWith modHash binary64Grows
          { load_factor_ := doubleTenth, num_keys_ := 0, buckets_ := List.replicate 10 [] }
          1 "a").buckets_.length < 2 ^ 31 ∧
      0 < (HashTable.PutWith modHash binary64Grows
          { load_factor_ := doubleTenth, num_keys_ := 0, buckets_ := List.replicate 10 [] }
          1 "a").capacity_int := by
  obtain ⟨hr, _, _, hlen, _, _⟩ := sample_tenth_facts
  have hlt : (HashTable.PutWith modHash binary64Grows
      { load_factor_ := doubleTenth, num_keys_ := 0, buckets_ := List.replicate 10 [] }
      1 "a").buckets_.length < 2 ^ 31 := by
    rw [hlen]
    norm_num
  exact ⟨rangeValid_modHash, hr, hlt,
    (index_in_bounds modHash rangeValid_modHash binary64Grows _ hr hlt).1⟩

end itis
